import Mathlib

/-!
A verification development for `rollup-plugin-hoist-import-deps` (`src/index.js`).

The plugin is a two-pass source transform:

* `transform` (pass 1, per source unit): a cheap regex pre-filter, a parse, and a
  walk that wraps every dynamic-import expression `import(X)` into
  `__loadDeps(import(X), "__IMPORT_DEPS__")` via positional `MagicString` edits,
  prepending one loader-import statement when at least one site was wrapped.
* `generateBundle` (pass 2, whole bundle): per emitted chunk, re-parse the final
  code, locate every literal whose raw text is the marker, recover the load
  target from the enclosing call's first argument (directly for `ImportExpression`
  nodes, by a literal-scavenging inner walk otherwise), and overwrite both the
  wrapped expression and the marker with literal text derived from the final
  module graph (`getDeps`).

The embedding below models the syntax trees handed to the plugin by the host
(`this.parse`, i.e. acorn) as an explicit inductive type, `MagicString` as a
positional edit script with a character-by-character rendering function, and the
rollup bundle as an association list of named chunks.  JavaScript `TypeError`s
raised by the pass (e.g. reading `.arguments` of a node that has none) are
modelled with `Except`.  Sourcemap output (`magicString.generateMap`) is not
modelled; theorems are about the returned code text.
-/

namespace HoistImportDeps

/- Estree-like syntax tree, restricted to the shapes the plugin inspects:
`Literal` (with `value` and `raw`), `ImportExpression` (with its `source`
child), nodes carrying a `callee`/`arguments` pair (`CallExpression`,
`NewExpression`), and every other node kind, which carries only its children
(such nodes have no `arguments` property).  Positions are character offsets
into the unit's text, as in estree's `start`/`end`. -/
mutual
inductive Node : Type where
  | literal (s e : Nat) (value raw : String)
  | importExpr (s e : Nat) (src : NodeOpt)
  | callExpr (s e : Nat) (callee : Node) (args : NodeList)
  | other (kind : String) (s e : Nat) (children : NodeList)

inductive NodeOpt : Type where
  | none
  | some (n : Node)

inductive NodeList : Type where
  | nil
  | cons (hd : Node) (tl : NodeList)
end

/-- The node's `start` offset. -/
def Node.nstart : Node → Nat
  | .literal s _ _ _ => s
  | .importExpr s _ _ => s
  | .callExpr s _ _ _ => s
  | .other _ s _ _ => s

/-- The node's `end` offset. -/
def Node.nend : Node → Nat
  | .literal _ e _ _ => e
  | .importExpr _ e _ => e
  | .callExpr _ e _ _ => e
  | .other _ _ e _ => e

/-- A `MagicString` edit: `insL pos c` is `prependLeft(pos, c)` (content
attached to the left side of the split at `pos`), `insR pos c` is
`appendRight(pos, c)` (content attached to the right side), and `ovw s e c` is
`overwrite(s, e, c)`. -/
inductive Edit : Type where
  | insL (pos : Nat) (content : List Char)
  | insR (pos : Nat) (content : List Char)
  | ovw (s e : Nat) (content : List Char)
deriving DecidableEq, Repr

/-- Content inserted on the left side of the boundary at `i`: later
`prependLeft` calls at the same index go in front of earlier ones. -/
def leftAt (edits : List Edit) (i : Nat) : List Char :=
  edits.foldl (fun acc ed =>
    match ed with
    | .insL p c => if p = i then c ++ acc else acc
    | _ => acc) []

/-- Content inserted on the right side of the boundary at `i`: later
`appendRight` calls at the same index go after earlier ones. -/
def rightAt (edits : List Edit) (i : Nat) : List Char :=
  edits.foldl (fun acc ed =>
    match ed with
    | .insR p c => if p = i then acc ++ c else acc
    | _ => acc) []

/-- The overwrite starting at `i`, if any; a later overwrite of the same range
replaces an earlier one, as `MagicString` lets the last edit of a chunk win. -/
def ovwAt (edits : List Edit) (i : Nat) : Option (Nat × List Char) :=
  edits.foldl (fun acc ed =>
    match ed with
    | .ovw s e c => if s = i then Option.some (e, c) else acc
    | _ => acc) Option.none

/-- Fueled renderer for `MagicString.toString`: at each boundary emit the left-
then right-attached insertions, then either the overwrite content (jumping to
the overwrite's end) or the original character.  The fuel only serves
structural recursion; `renderFrom` supplies enough for the whole text. -/
def renderAux (edits : List Edit) : Nat → List Char → Nat → List Char
  | 0, _, _ => []
  | _ + 1, [], i => leftAt edits i ++ rightAt edits i
  | fuel + 1, c :: rest, i =>
    leftAt edits i ++ rightAt edits i ++
      (match ovwAt edits i with
       | Option.some (e, r) => r ++ renderAux edits fuel (rest.drop (e - i - 1)) e
       | Option.none => c :: renderAux edits fuel rest (i + 1))

/-- `MagicString.toString` for original text `l` starting at offset `i`. -/
def renderFrom (edits : List Edit) (l : List Char) (i : Nat) : List Char :=
  renderAux edits (l.length + 1) l i

/-- `String.startsWith`, computed on the character list. -/
def strStartsWith (s p : String) : Bool := p.data.isPrefixOf s.data

/-- `String.endsWith`, computed on the character list. -/
def strEndsWith (s p : String) : Bool := p.data.isSuffixOf s.data

/-- `s.substring(n)`, computed on the character list. -/
def strDrop (s : String) (n : Nat) : String := String.mk (s.data.drop n)

/-- `s.substring(0, s.length - n)`, computed on the character list. -/
def strDropRight (s : String) (n : Nat) : String :=
  String.mk (s.data.take (s.data.length - n))

/-- The reserved id of the virtual loader unit. -/
def VIRTUAL_ID_IMPORT : String := "preloaddeps:import"

/-- The marker: the raw text of the sentinel string literal, quotes included. -/
def MARKER : String := "\"__IMPORT_DEPS__\""

/-- JavaScript whitespace for the `\s` of the pre-filter regex (the exotic
Unicode space characters are omitted; all coherence hypotheses below use this
same predicate). -/
def isWsChar (c : Char) : Bool :=
  c = ' ' || c = '\t' || c = '\n' || c = '\r' || c = '\x0b' || c = '\x0c'

/-- The characters of the keyword `import`. -/
def importKw : List Char := ['i', 'm', 'p', 'o', 'r', 't']

/-- Does `/import\s*\([^\)]+\)/` match at the head of `l`?  After `import`,
optional whitespace and `(`, the regex needs one non-`)` character and then
some later `)`. -/
def matchImportAt (l : List Char) : Bool :=
  importKw.isPrefixOf l &&
    (match (l.drop 6).dropWhile isWsChar with
     | '(' :: c :: rest => c != ')' && rest.contains ')'
     | _ => false)

/-- `code.match(/import\s*\([^\)]+\)/)`: does the pre-filter regex match
anywhere in the text? -/
def firstpass : List Char → Bool
  | [] => false
  | c :: rest => matchImportAt (c :: rest) || firstpass rest

/- Pre-order list of the `(start, end)` spans of every `ImportExpression`,
in the encounter order of the `estree-walker` traversal. -/
mutual
def importSites : Node → List (Nat × Nat)
  | .literal _ _ _ _ => []
  | .importExpr s e src => (s, e) :: importSitesOpt src
  | .callExpr _ _ callee args => importSites callee ++ importSitesList args
  | .other _ _ _ ch => importSitesList ch

def importSitesOpt : NodeOpt → List (Nat × Nat)
  | .none => []
  | .some n => importSites n

def importSitesList : NodeList → List (Nat × Nat)
  | .nil => []
  | .cons h t => importSites h ++ importSitesList t
end

/-- The text inserted before each dynamic-import site. -/
def wrapLText : List Char := "__loadDeps(".data

/-- The text inserted after each dynamic-import site: `, "__IMPORT_DEPS__")`. -/
def wrapRText : List Char := (", " ++ MARKER ++ ")").data

/-- The edit script of pass 1: for every site, in walk order,
`prependLeft(start, ...)` then `appendRight(end, ...)`. -/
def wrapEdits : List (Nat × Nat) → List Edit
  | [] => []
  | p :: rest => Edit.insL p.1 wrapLText :: Edit.insR p.2 wrapRText :: wrapEdits rest

/-- The import statement prepended when at least one site was wrapped. -/
def importStmt : String :=
  "import \x7b__loadDeps\x7d from 'preloaddeps:import';\n"

/-- The `PARSE_ERROR` warning message for unit `id` (the host's exception text
appended after the newline is not modelled). -/
def parseWarn (id : String) : String :=
  "rollup-plugin-hoist-import-deps: failed to parse " ++ id ++ ".\n"

/-- Pass 1, the `transform` hook.  `parse` stands for the host's `this.parse`;
a `Option.none` result is a parse failure.  The returned pair is the new code
(`Option.none` meaning the unit is left unchanged) and the recorded warnings.
The returned sourcemap is not modelled. -/
def transform (parse : String → Option Node) (id code : String) :
    Option String × List String :=
  if id = VIRTUAL_ID_IMPORT then (Option.none, [])
  else if firstpass code.data then
    match parse code with
    | Option.none => (Option.none, [parseWarn id])
    | Option.some ast =>
      let sites := importSites ast
      if sites.isEmpty then (Option.none, [])
      else
        (Option.some (importStmt ++ String.mk (renderFrom (wrapEdits sites) code.data 0)), [])
  else (Option.none, [])

/-- An output-bundle entry as inspected by pass 2: its `type`, `fileName`,
generated `code`, static `imports` and `dynamicImports`. -/
structure Chunk where
  type : String
  fileName : String
  code : String
  imports : List String
  dynamicImports : List String
deriving DecidableEq, Repr

/-- `bundle[name]`: look a chunk up by its key. -/
def bundleGet : List (String × Chunk) → String → Option Chunk
  | [], _ => Option.none
  | (k, c) :: rest, n => if k = n then Option.some c else bundleGet rest n

/-- A JavaScript double-quoted literal of `s`. -/
def quoteStr (s : String) : String := "\"" ++ s ++ "\""

/-- `Array.prototype.join(',')`. -/
def commaJoin : List String → String
  | [] => ""
  | [s] => s
  | s :: rest => s ++ "," ++ commaJoin rest

/-- `getDeps(chunkName, bundle)` from the source, with the captured
`options.method` passed explicitly: strip a leading `./`, append `.js` for the
lookup when the reference is extension-less (AMD), and render the chunk's
static imports as a comma-joined list of `"./..."` literals, dropping the
`.js` again only for the AMD + `method === 'import'` combination. -/
def getDeps (method : String) (bundle : List (String × Chunk)) (chunkName : String) : String :=
  let name := if strStartsWith chunkName "./" then strDrop chunkName 2 else chunkName
  let amd := !(strEndsWith name ".js")
  let name := if amd then name ++ ".js" else name
  match bundleGet bundle name with
  | Option.some chunk =>
    if chunk.imports.length > 0 then
      commaJoin (chunk.imports.map (fun s =>
        quoteStr ("./" ++ (if amd && (method == "import") then strDropRight s 3 else s))))
    else ""
  | Option.none => ""

/- The inner walk of the non-ESM branch: `importChunkName` starts as `null`
and is overwritten by the value of every `Literal` the walk enters, so the
walk's result is the value of the last literal in traversal order.  The state
threading mirrors the mutation of `importChunkName` in the source. -/
mutual
def lastLit : Node → Option String → Option String
  | .literal _ _ v _, _ => Option.some v
  | .importExpr _ _ src, st => lastLitOpt src st
  | .callExpr _ _ callee args, st => lastLitList args (lastLit callee st)
  | .other _ _ _ ch, st => lastLitList ch st

def lastLitOpt : NodeOpt → Option String → Option String
  | .none, st => st
  | .some n, st => lastLit n st

def lastLitList : NodeList → Option String → Option String
  | .nil, st => st
  | .cons h t, st => lastLitList t (lastLit h st)
end

/-- `importExpr.source ? importExpr.source.value : null`, where `.value` of a
non-literal source is `undefined`. -/
def sourceValue : NodeOpt → Option String
  | .some (.literal _ _ v _) => Option.some v
  | _ => Option.none

/-- Recover the load-target name from the first argument of the wrapper call:
the ESM branch for an `ImportExpression`, the literal-scavenging inner walk
otherwise. -/
def recoverName : Node → Option String
  | .importExpr _ _ src => sourceValue src
  | n => lastLit n Option.none

/-- JavaScript truthiness of `importChunkName` (the empty string and `null`
are falsy). -/
def truthyStr : Option String → Bool
  | Option.some s => s != ""
  | Option.none => false

/- The finalize walk of pass 2: collect, in traversal order, the two
overwrites of every marker literal whose target is recovered (truthy).  A
marker literal whose parent has no `arguments` property makes the source read
`parent.arguments[0]` of `undefined` (or of `null` at the root), a thrown
`TypeError`, modelled as `Except.error`. -/
mutual
def visit (method : String) (bundle : List (String × Chunk)) (parent : NodeOpt) :
    Node → Except String (List Edit)
  | .literal s e _ raw =>
    if raw = MARKER then
      match parent with
      | .some (.callExpr _ _ _ args) =>
        match args with
        | .nil => Except.ok []
        | .cons impE _ =>
          match recoverName impE with
          | Option.some nm =>
            if nm = "" then Except.ok []
            else
              Except.ok [Edit.ovw impE.nstart impE.nend (quoteStr nm).data,
                Edit.ovw s e (getDeps method bundle nm).data]
          | Option.none => Except.ok []
      | _ => Except.error "TypeError: Cannot read properties of undefined (reading 0)"
    else Except.ok []
  | .importExpr s e src => visitOpt method bundle (.some (.importExpr s e src)) src
  | .callExpr s e callee args => do
    let a ← visit method bundle (.some (.callExpr s e callee args)) callee
    let b ← visitList method bundle (.some (.callExpr s e callee args)) args
    Except.ok (a ++ b)
  | .other k s e ch => visitList method bundle (.some (.other k s e ch)) ch

def visitOpt (method : String) (bundle : List (String × Chunk)) (parent : NodeOpt) :
    NodeOpt → Except String (List Edit)
  | .none => Except.ok []
  | .some n => visit method bundle parent n

def visitList (method : String) (bundle : List (String × Chunk)) (parent : NodeOpt) :
    NodeList → Except String (List Edit)
  | .nil => Except.ok []
  | .cons h t => do
    let a ← visit method bundle parent h
    let b ← visitList method bundle parent t
    Except.ok (a ++ b)
end

/-- Pass 2 for one bundle entry: skip assets and chunks with no dynamic
imports; on parse failure warn and leave the chunk untouched; otherwise apply
the collected overwrites to the chunk's code. -/
def finalizeChunk (parse : String → Option Node) (method : String)
    (bundle : List (String × Chunk)) (c : Chunk) : Except String (Chunk × List String) :=
  if c.type ≠ "chunk" ∨ c.dynamicImports = [] then Except.ok (c, [])
  else
    match parse c.code with
    | Option.none => Except.ok (c, [parseWarn c.fileName])
    | Option.some ast =>
      match visit method bundle NodeOpt.none ast with
      | Except.error msg => Except.error msg
      | Except.ok edits =>
        Except.ok ({ c with code := String.mk (renderFrom edits c.code.data 0) }, [])

/-- The `generateBundle` loop over a list of entries, with the full bundle
(used by `getDeps` lookups) passed separately.  `getDeps` only reads the
`imports` lists, which the loop never mutates, so reading them from the
original bundle is faithful to the in-place JavaScript loop. -/
def genAux (parse : String → Option Node) (method : String)
    (bundle : List (String × Chunk)) : List (String × Chunk) →
    Except String (List (String × Chunk) × List String)
  | [] => Except.ok ([], [])
  | (n, c) :: rest => do
    let r ← finalizeChunk parse method bundle c
    let rs ← genAux parse method bundle rest
    Except.ok ((n, r.1) :: rs.1, r.2 ++ rs.2)

/-- Pass 2, the `generateBundle` hook, over the whole bundle. -/
def generateBundle (parse : String → Option Node) (method : String)
    (bundle : List (String × Chunk)) :
    Except String (List (String × Chunk) × List String) :=
  genAux parse method bundle bundle

/-- `canonicalize`: remove one leading and one trailing `/` from `basePath`. -/
def canonicalize (path : String) : String :=
  let path := if strStartsWith path "/" then strDrop path 1 else path
  if strEndsWith path "/" then strDropRight path 1 else path

/-- The user-supplied options object.  `Option.none` is an absent (or
`null`/`undefined`) property; `customPreloadIsFunction` models
`typeof options.customPreload === 'function'`. -/
structure RawOptions where
  method : Option String
  setAnonymousCrossOrigin : Option Bool
  anononymousCrossOrigin : Option Bool
  customPreloadIsFunction : Bool
  baseUrl : Option String

/-- The options after the defaulting at the top of `hoistImportDeps`. -/
structure ResolvedOptions where
  method : String
  setAnonymousCrossOrigin : Option Bool
  baseUrl : Option String
deriving DecidableEq, Repr

/-- Plugin setup: default the options and validate the `custom` method.  The
source mirrors: `options.setAnonymousCrossOrigin = options.setAnonymousCrossOrigin
!= null ? options.anononymousCrossOrigin : true` — note the misspelt property
read on the explicitly-set branch. -/
def hoistImportDeps (o : RawOptions) : Except String ResolvedOptions :=
  let method := o.method.getD "preload"
  let sac := if o.setAnonymousCrossOrigin.isSome then o.anononymousCrossOrigin
    else Option.some true
  let base := o.baseUrl.map canonicalize
  if method = "custom" ∧ o.customPreloadIsFunction = false then
    Except.error
      "hoistImportDeps: options.method was set to 'custom' but options.customPreload is not a function"
  else Except.ok { method := method, setAnonymousCrossOrigin := sac, baseUrl := base }

/-- The `crossOrigin` attribute spliced into the loader template:
`${options.setAnonymousCrossOrigin ? `crossOrigin: 'anonymous',` : ''}`. -/
def crossOriginFrag (o : ResolvedOptions) : String :=
  match o.setAnonymousCrossOrigin with
  | Option.some true => "crossOrigin: 'anonymous',"
  | _ => ""

/-- The base-url rewrite spliced into the loader template:
`${options.baseUrl != null ? `dep = '/${options.baseUrl}/' + dep.substring(2);` : ''}`. -/
def baseUrlFrag (o : ResolvedOptions) : String :=
  match o.baseUrl with
  | Option.some b => "dep = '/" ++ b ++ "/' + dep.substring(2);"
  | Option.none => ""

/-- The loader template up to the base-url splice point. -/
def loadTplA : String :=
  "const seen = new Set();\n" ++
  "const requestIdleCallback = (typeof window !== 'undefined' && window.requestIdleCallback) ||\n" ++
  "  function (cb) \x7b\n" ++
  "    const start = Date.now();\n" ++
  "    return setTimeout(function () \x7b\n" ++
  "      cb(\x7b\n" ++
  "        didTimeout: false,\n" ++
  "        timeRemaining: function () \x7b\n" ++
  "          return Math.max(0, 50 - (Date.now() - start));\n" ++
  "      \x7d,\n" ++
  "    \x7d);\n" ++
  "  \x7d, 1);\n" ++
  "\x7d;\n" ++
  "function preloadOrPrefetch(dep, method) \x7b\n" ++
  "  if (seen.has(dep)) \x7b\n" ++
  "    return Promise.resolve(\x7b\x7d);\n" ++
  "  \x7d;\n" ++
  "  seen.add(dep);\n" ++
  "  return new Promise((res, rej) => \x7b\n" ++
  "    const el = document.createElement('link');\n" ++
  "    const hasSupport = el.relList && el.relList.supports && el.relList.supports(method);\n" ++
  "    if (hasSupport) \x7b\n" ++
  "      "

/-- The loader template between the base-url and cross-origin splice points. -/
def loadTplB : String :=
  ";\n" ++
  "      Object.assign(el, \x7b href: dep, rel: method, as: 'script', "

/-- The loader template after the cross-origin splice point. -/
def loadTplC : String :=
  " onload: () => \x7b el.remove(); res(\x7b\x7d); \x7d, onerror: () => \x7b el.remove(); rej(); \x7d\x7d);\n" ++
  "      document.head.appendChild(el);\n" ++
  "    \x7d else \x7b\n" ++
  "      let fetchFn;\n" ++
  "      if (window.fetch != null) \x7b\n" ++
  "        fetchFn = () => fetch(dep, \x7bcredentials: 'same-origin'\x7d).then(() => \x7b return \x7b\x7d; \x7d);\n" ++
  "      \x7d else \x7b\n" ++
  "        fetchFn = () => new Promise((ires, irej) => \x7b\n" ++
  "          const req = new XMLHttpRequest();\n" ++
  "          req.open('GET', dep, req.withCredentials=true);\n" ++
  "          req.onload = () => \x7b\n" ++
  "            (req.status === 200) ? ires(\x7b\x7d) : irej();\n" ++
  "          \x7d;\n" ++
  "          req.send();    \n" ++
  "        \x7d);\n" ++
  "      \x7d\n" ++
  "      if (method === 'preload') \x7b\n" ++
  "        fetchFn().then(res).catch(rej);\n" ++
  "      \x7d else \x7b\n" ++
  "        requestIdleCallback(() => fetchFn().then(res).catch(rej), \x7btimeout: 2000\x7d);\n" ++
  "      \x7d\n" ++
  "    \x7d\n" ++
  "  \x7d);\n" ++
  "\x7d\n" ++
  "export function __loadDeps(baseImport, ...deps) \x7b\n" ++
  "  const method = (typeof window !== 'undefined' && !!window['HOIST_PREFETCH']) ? 'prefetch' : 'preload';\n" ++
  "  if (typeof document !== 'undefined' && document.createElement != null && document.head != null) \x7b\n" ++
  "    for (let dep of deps) \x7b\n" ++
  "      if (!dep.endsWith('.js')) dep += '.js';\n" ++
  "      preloadOrPrefetch(dep, method);\n" ++
  "    \x7d\n" ++
  "  \x7d\n" ++
  "  return (method === 'preload') ? import(baseImport) : preloadOrPrefetch(baseImport, method);\n" ++
  "\x7d"

/-- The `load` hook: serve the loader template for the reserved virtual id. -/
def load (o : ResolvedOptions) (id : String) : Option String :=
  if id = VIRTUAL_ID_IMPORT then
    Option.some (loadTplA ++ baseUrlFrag o ++ loadTplB ++ crossOriginFrag o ++ loadTplC)
  else Option.none

/-- No edit touches the boundary at `i`. -/
def noEditsAt (edits : List Edit) (i : Nat) : Prop :=
  leftAt edits i = [] ∧ rightAt edits i = [] ∧ ovwAt edits i = Option.none

/-- Well-formed insert-site list: starting from offset `i`, each site is
nonempty, ends by `b`, and the next site starts strictly after the previous
site's end. -/
def chainOk (b : Nat) : Nat → List (Nat × Nat) → Prop
  | _, [] => True
  | i, (s, e) :: rest => i ≤ s ∧ s < e ∧ e ≤ b ∧ chainOk b (e + 1) rest

/-- Well-formed overwrite list (start, end, replacement): ordered, nonempty
ranges within `b`. -/
def chainOk2 (b : Nat) : Nat → List (Nat × Nat × List Char) → Prop
  | _, [] => True
  | i, (s, e, _) :: rest => i ≤ s ∧ s < e ∧ e ≤ b ∧ chainOk2 b e rest

/-- Decision procedure for `chainOk`. -/
def chainOkDec (b : Nat) : (i : Nat) → (T : List (Nat × Nat)) → Decidable (chainOk b i T)
  | _, [] => Decidable.isTrue trivial
  | i, (s, e) :: rest =>
    have : Decidable (chainOk b (e + 1) rest) := chainOkDec b (e + 1) rest
    decidable_of_iff (i ≤ s ∧ s < e ∧ e ≤ b ∧ chainOk b (e + 1) rest) Iff.rfl

instance (b i : Nat) (T : List (Nat × Nat)) : Decidable (chainOk b i T) :=
  chainOkDec b i T

/-- Decision procedure for `chainOk2`. -/
def chainOk2Dec (b : Nat) :
    (i : Nat) → (T : List (Nat × Nat × List Char)) → Decidable (chainOk2 b i T)
  | _, [] => Decidable.isTrue trivial
  | i, (s, e, _) :: rest =>
    have : Decidable (chainOk2 b e rest) := chainOk2Dec b e rest
    decidable_of_iff (i ≤ s ∧ s < e ∧ e ≤ b ∧ chainOk2 b e rest) Iff.rfl

instance (b i : Nat) (T : List (Nat × Nat × List Char)) : Decidable (chainOk2 b i T) :=
  chainOk2Dec b i T

/-- The explicit shape of pass 1's output text from offset `i` on: every site
is wrapped as `__loadDeps(` ++ site ++ `, "__IMPORT_DEPS__")`, everything else
is carried over verbatim. -/
def wrapChain : List (Nat × Nat) → List Char → Nat → List Char
  | [], l, _ => l
  | (s, e) :: rest, l, i =>
    l.take (s - i) ++ wrapLText ++ ((l.drop (s - i)).take (e - s)) ++ wrapRText ++
      wrapChain rest (l.drop (e - i)) e

/-- The explicit shape of an overwrite script's output text from offset `i`
on: each range is replaced by its content, everything else carried over. -/
def ovwChain : List (Nat × Nat × List Char) → List Char → Nat → List Char
  | [], l, _ => l
  | (s, e, c) :: rest, l, i =>
    l.take (s - i) ++ c ++ ovwChain rest (l.drop (e - i)) e

/-- An overwrite script as a `MagicString` edit list. -/
def ovwEdits : List (Nat × Nat × List Char) → List Edit
  | [] => []
  | (s, e, c) :: rest => Edit.ovw s e c :: ovwEdits rest

/-- Append of the explicit child lists. -/
def nlAppend : NodeList → NodeList → NodeList
  | .nil, b => b
  | .cons h t, b => .cons h (nlAppend t b)

/- Does the subtree contain no literal whose raw text is the marker? -/
mutual
def markerFree : Node → Bool
  | .literal _ _ _ raw => raw != MARKER
  | .importExpr _ _ src => markerFreeOpt src
  | .callExpr _ _ callee args => markerFree callee && markerFreeList args
  | .other _ _ _ ch => markerFreeList ch

def markerFreeOpt : NodeOpt → Bool
  | .none => true
  | .some n => markerFree n

def markerFreeList : NodeList → Bool
  | .nil => true
  | .cons h t => markerFree h && markerFreeList t
end

/- The pre-order list of the values of all literal nodes of a subtree, in
`estree-walker` traversal order. -/
mutual
def litValues : Node → List String
  | .literal _ _ v _ => [v]
  | .importExpr _ _ src => litValuesOpt src
  | .callExpr _ _ callee args => litValues callee ++ litValuesList args
  | .other _ _ _ ch => litValuesList ch

def litValuesOpt : NodeOpt → List String
  | .none => []
  | .some n => litValues n

def litValuesList : NodeList → List String
  | .nil => []
  | .cons h t => litValues h ++ litValuesList t
end

/-- Is the node anything other than an `ImportExpression`? -/
def notImportExpr : Node → Bool
  | .importExpr _ _ _ => false
  | _ => true

/-- Modelled from the spec: "search all descendant nodes of that argument for
the first literal value" — the value of the first literal in traversal order.
Stated for comparison with the source's inner walk (`lastLit`). -/
def specFirstLiteralValue (n : Node) : Option String := (litValues n).head?

/-- The marker's inner text, without the surrounding quotes. -/
def markerInner : List Char := "__IMPORT_DEPS__".data

/-- `t` occurs in `s` at position `p`. -/
def infixAt (t s : List Char) (p : Nat) : Prop := (s.drop p).take t.length = t

instance infixAtDec (t s : List Char) (p : Nat) : Decidable (infixAt t s p) :=
  inferInstanceAs (Decidable ((s.drop p).take t.length = t))

/-- One recovered marker site of pass 2: the span of the wrapped first
argument, the span of the marker literal, and the recovered target name. -/
structure FinSite where
  is : Nat
  ie : Nat
  ms : Nat
  me : Nat
  nm : String
deriving DecidableEq, Repr

/-- The overwrite script of a finalize run in which every marker site was
recovered: per site, the first argument is replaced by the quoted name and
the marker literal by the `getDeps` text. -/
def finSiteTriples (method : String) (bundle : List (String × Chunk)) :
    List FinSite → List (Nat × Nat × List Char)
  | [] => []
  | f :: rest =>
    (f.is, f.ie, (quoteStr f.nm).data) ::
      (f.ms, f.me, (getDeps method bundle f.nm).data) ::
        finSiteTriples method bundle rest

/- Raw-faithfulness of a parse result: every literal whose `raw` is the
marker sits at a span whose text in the code really is the marker (this is
what `raw` means for a parser-produced tree). -/
mutual
def markerRawOk (code : List Char) : Node → Prop
  | .literal s e _ raw =>
    raw = MARKER → (code.drop s).take (MARKER.data.length) = MARKER.data ∧ e = s + MARKER.data.length
  | .importExpr _ _ src => markerRawOkOpt code src
  | .callExpr _ _ callee args => markerRawOk code callee ∧ markerRawOkList code args
  | .other _ _ _ ch => markerRawOkList code ch

def markerRawOkOpt (code : List Char) : NodeOpt → Prop
  | .none => True
  | .some n => markerRawOk code n

def markerRawOkList (code : List Char) : NodeList → Prop
  | .nil => True
  | .cons h t => markerRawOk code h ∧ markerRawOkList code t
end

/-- The textual shape of a dynamic-import site: `import`, whitespace, a
parenthesized nonempty argument whose first character is not `)`. -/
def siteText (code : List Char) (s e : Nat) : Prop :=
  ∃ w c0 mid, (code.drop s).take (e - s) = importKw ++ w ++ '(' :: c0 :: mid ++ [')'] ∧
    (∀ c ∈ w, isWsChar c = true) ∧ c0 ≠ ')'

/-- A concrete finalized-chunk text with one wrapped dynamic-load site. -/
def exCode : String := "__loadDeps(import(\"t.js\"), \"__IMPORT_DEPS__\")"

/-- The syntax tree of `exCode`. -/
def exAst : Node :=
  Node.other "Program" 0 45 (NodeList.cons
    (Node.callExpr 0 44 (Node.other "Identifier" 0 10 NodeList.nil)
      (NodeList.cons
        (Node.importExpr 11 25 (NodeOpt.some (Node.literal 18 24 "t.js" "\"t.js\"")))
        (NodeList.cons (Node.literal 27 44 "__IMPORT_DEPS__" "\"__IMPORT_DEPS__\"")
          NodeList.nil)))
    NodeList.nil)

/-- A parse function recognizing exactly `exCode`. -/
def exParse : String → Option Node :=
  fun s => if s = exCode then Option.some exAst else Option.none

/-- The chunk holding `exCode`. -/
def exChunk : Chunk := ⟨"chunk", "main.js", exCode, [], ["t.js"]⟩

/-- A bundle in which the load target `t.js` has two static imports. -/
def exBundleFull : List (String × Chunk) :=
  [("main.js", exChunk), ("t.js", ⟨"chunk", "t.js", "", ["a.js", "b.js"], []⟩)]

/-- A bundle in which the load target `t.js` has no static imports. -/
def exBundleEmpty : List (String × Chunk) :=
  [("main.js", exChunk), ("t.js", ⟨"chunk", "t.js", "", [], []⟩)]

/-- A chunk text containing the marker raw text as an ordinary string literal
of the user's own code, outside any call expression. -/
def crashCode : String := "const x = \"__IMPORT_DEPS__\";"

/-- The syntax tree of `crashCode`: the marker-raw literal's parent is a
`VariableDeclarator`, a node with no `arguments` property. -/
def crashAst : Node :=
  Node.other "Program" 0 28 (NodeList.cons
    (Node.other "VariableDeclaration" 0 28 (NodeList.cons
      (Node.other "VariableDeclarator" 6 27 (NodeList.cons
        (Node.other "Identifier" 6 7 NodeList.nil)
        (NodeList.cons (Node.literal 10 27 "__IMPORT_DEPS__" "\"__IMPORT_DEPS__\"")
          NodeList.nil)))
      NodeList.nil))
    NodeList.nil)

/-- A parse function recognizing exactly `crashCode`. -/
def crashParse : String → Option Node :=
  fun s => if s = crashCode then Option.some crashAst else Option.none

/-- A bundle whose only chunk holds `crashCode` and has a dynamic import. -/
def crashBundle : List (String × Chunk) :=
  [("main.js", ⟨"chunk", "main.js", crashCode, [], ["t.js"]⟩)]

/-- Substring scan: does `t` occur contiguously in the text? -/
def containsSub (t : List Char) : List Char → Bool
  | [] => t.isEmpty
  | c :: rest => t.isPrefixOf (c :: rest) || containsSub t rest

/-!
## Lemmas: `MagicString` rendering
-/

theorem leftAt_acc (edits : List Edit) (j : Nat) (acc : List Char) :
    edits.foldl (fun acc ed =>
      match ed with
      | .insL p c => if p = j then c ++ acc else acc
      | _ => acc) acc = leftAt edits j ++ acc := by
  induction edits generalizing acc with
  | nil => simp [leftAt]
  | cons ed rest ih =>
    simp only [List.foldl_cons, leftAt]
    rw [ih, ih ((match ed with
      | Edit.insL p c => if p = j then c ++ [] else []
      | _ => ([] : List Char)))]
    cases ed with
    | insL p c => by_cases h : p = j <;> simp [h, leftAt]
    | insR p c => simp [leftAt]
    | ovw s e c => simp [leftAt]

theorem leftAt_cons (ed : Edit) (edits : List Edit) (j : Nat) :
    leftAt (ed :: edits) j = leftAt edits j ++
      (match ed with
       | Edit.insL p c => if p = j then c else []
       | _ => []) := by
  simp only [leftAt, List.foldl_cons]
  rw [leftAt_acc]
  cases ed with
  | insL p c => by_cases h : p = j <;> simp [h, leftAt]
  | insR p c => simp [leftAt]
  | ovw s e c => simp [leftAt]

theorem rightAt_acc (edits : List Edit) (j : Nat) (acc : List Char) :
    edits.foldl (fun acc ed =>
      match ed with
      | .insR p c => if p = j then acc ++ c else acc
      | _ => acc) acc = acc ++ rightAt edits j := by
  induction edits generalizing acc with
  | nil => simp [rightAt]
  | cons ed rest ih =>
    simp only [List.foldl_cons, rightAt]
    rw [ih, ih ((match ed with
      | Edit.insR p c => if p = j then [] ++ c else []
      | _ => ([] : List Char)))]
    cases ed with
    | insR p c => by_cases h : p = j <;> simp [h, rightAt]
    | insL p c => simp [rightAt]
    | ovw s e c => simp [rightAt]

theorem rightAt_cons (ed : Edit) (edits : List Edit) (j : Nat) :
    rightAt (ed :: edits) j =
      (match ed with
       | Edit.insR p c => if p = j then c else []
       | _ => []) ++ rightAt edits j := by
  simp only [rightAt, List.foldl_cons]
  rw [rightAt_acc]
  cases ed with
  | insR p c => by_cases h : p = j <;> simp [h, rightAt]
  | insL p c => simp [rightAt]
  | ovw s e c => simp [rightAt]

theorem ovwAt_acc (edits : List Edit) (j : Nat) :
    ∀ acc, edits.foldl (fun acc ed =>
      match ed with
      | .ovw s e c => if s = j then Option.some (e, c) else acc
      | _ => acc) acc =
      (match ovwAt edits j with
       | Option.some x => Option.some x
       | Option.none => acc) := by
  induction edits with
  | nil => intro acc; rfl
  | cons ed rest ih =>
    intro acc
    have hcons : ovwAt (ed :: rest) j =
        (match ovwAt rest j with
         | Option.some x => Option.some x
         | Option.none =>
           match ed with
           | Edit.ovw s e c => if s = j then Option.some (e, c) else Option.none
           | _ => Option.none) := by
      show List.foldl _ _ rest = _
      rw [ih]
    rw [List.foldl_cons, ih, hcons]
    cases hA : ovwAt rest j with
    | some x => rfl
    | none =>
      cases ed with
      | ovw s e c => by_cases h : s = j <;> simp [h]
      | insL p c => rfl
      | insR p c => rfl

theorem ovwAt_cons (ed : Edit) (edits : List Edit) (j : Nat) :
    ovwAt (ed :: edits) j =
      (match ovwAt edits j with
       | Option.some x => Option.some x
       | Option.none =>
         match ed with
         | Edit.ovw s e c => if s = j then Option.some (e, c) else Option.none
         | _ => Option.none) := by
  show List.foldl _ _ edits = _
  rw [ovwAt_acc]

theorem renderAux_congr (edits : List Edit) :
    ∀ f1 f2 l i, l.length + 1 ≤ f1 → l.length + 1 ≤ f2 →
      renderAux edits f1 l i = renderAux edits f2 l i := by
  intro f1
  induction f1 with
  | zero => intro f2 l i h1 _; omega
  | succ f1 ih =>
    intro f2 l i h1 h2
    cases f2 with
    | zero => omega
    | succ f2 =>
      cases l with
      | nil => rfl
      | cons c rest =>
        simp only [renderAux]
        cases hov : ovwAt edits i with
        | none =>
          dsimp only
          simp only [List.length_cons] at h1 h2
          rw [ih f2 rest (i + 1) (by omega) (by omega)]
        | some pr =>
          obtain ⟨e, r⟩ := pr
          dsimp only
          simp only [List.length_cons] at h1 h2
          have hd : (rest.drop (e - i - 1)).length = rest.length - (e - i - 1) :=
            List.length_drop _ _
          rw [ih f2 (rest.drop (e - i - 1)) e (by omega) (by omega)]

theorem renderAux_fuel (edits : List Edit) (f : Nat) (l : List Char) (i : Nat)
    (h : l.length + 1 ≤ f) : renderAux edits f l i = renderFrom edits l i :=
  renderAux_congr edits f (l.length + 1) l i h (Nat.le_refl _)

theorem renderFrom_nil (edits : List Edit) (i : Nat) :
    renderFrom edits [] i = leftAt edits i ++ rightAt edits i := rfl

theorem renderFrom_cons (edits : List Edit) (c : Char) (rest : List Char) (i : Nat) :
    renderFrom edits (c :: rest) i = leftAt edits i ++ rightAt edits i ++
      (match ovwAt edits i with
       | Option.some (e, r) => r ++ renderFrom edits (rest.drop (e - i - 1)) e
       | Option.none => c :: renderFrom edits rest (i + 1)) := by
  show renderAux edits ((c :: rest).length + 1) (c :: rest) i = _
  simp only [List.length_cons, renderAux]
  cases hov : ovwAt edits i with
  | none =>
    dsimp only
    rw [renderAux_fuel edits (rest.length + 1) rest (i + 1) (Nat.le_refl _)]
  | some pr =>
    obtain ⟨e, r⟩ := pr
    dsimp only
    have hd : (rest.drop (e - i - 1)).length = rest.length - (e - i - 1) :=
      List.length_drop _ _
    rw [renderAux_fuel edits (rest.length + 1) (rest.drop (e - i - 1)) e (by omega)]


theorem renderFrom_no_edits (edits : List Edit) :
    ∀ l i, (∀ j, i ≤ j → noEditsAt edits j) → renderFrom edits l i = l := by
  intro l
  induction l with
  | nil =>
    intro i h
    obtain ⟨h1, h2, _⟩ := h i (Nat.le_refl i)
    rw [renderFrom_nil, h1, h2]
    rfl
  | cons c rest ih =>
    intro i h
    obtain ⟨h1, h2, h3⟩ := h i (Nat.le_refl i)
    rw [renderFrom_cons, h1, h2, h3]
    simp only [List.nil_append]
    rw [ih (i + 1) (fun j hj => h j (by omega))]

theorem renderFrom_skip (edits : List Edit) :
    ∀ n l i, (∀ j, i ≤ j → j < i + n → noEditsAt edits j) → n ≤ l.length →
      renderFrom edits l i = l.take n ++ renderFrom edits (l.drop n) (i + n) := by
  intro n
  induction n with
  | zero => intro l i _ _; simp
  | succ n ih =>
    intro l i h hlen
    cases l with
    | nil => simp at hlen
    | cons c rest =>
      obtain ⟨h1, h2, h3⟩ := h i (Nat.le_refl i) (by omega)
      rw [renderFrom_cons, h1, h2, h3]
      simp only [List.nil_append, List.take_succ_cons, List.drop_succ_cons]
      rw [ih rest (i + 1) (fun j hj1 hj2 => h j (by omega) (by omega))
        (by simp only [List.length_cons] at hlen; omega)]
      have harith : i + 1 + n = i + (n + 1) := by omega
      rw [harith]
      simp only [List.cons_append]

theorem wrapEdits_append (a b : List (Nat × Nat)) :
    wrapEdits (a ++ b) = wrapEdits a ++ wrapEdits b := by
  induction a with
  | nil => rfl
  | cons p rest ih => simp [wrapEdits, ih]

theorem ovwEdits_append (a b : List (Nat × Nat × List Char)) :
    ovwEdits (a ++ b) = ovwEdits a ++ ovwEdits b := by
  induction a with
  | nil => rfl
  | cons p rest ih =>
    obtain ⟨s, e, c⟩ := p
    simp [ovwEdits, ih]

theorem leftAt_append (a b : List Edit) (j : Nat) :
    leftAt (a ++ b) j = leftAt b j ++ leftAt a j := by
  induction a with
  | nil => simp [leftAt]
  | cons ed rest ih =>
    rw [List.cons_append, leftAt_cons, leftAt_cons, ih, List.append_assoc]

theorem rightAt_append (a b : List Edit) (j : Nat) :
    rightAt (a ++ b) j = rightAt a j ++ rightAt b j := by
  induction a with
  | nil => simp [rightAt]
  | cons ed rest ih =>
    rw [List.cons_append, rightAt_cons, rightAt_cons, ih, List.append_assoc]

theorem ovwAt_append (a b : List Edit) (j : Nat) :
    ovwAt (a ++ b) j =
      (match ovwAt b j with
       | Option.some x => Option.some x
       | Option.none => ovwAt a j) := by
  induction a with
  | nil =>
    rw [List.nil_append]
    cases hb : ovwAt b j <;> rfl
  | cons ed rest ih =>
    rw [List.cons_append, ovwAt_cons, ovwAt_cons, ih]
    cases hb : ovwAt b j <;> cases hr : ovwAt rest j <;> rfl

theorem leftAt_wrapEdits_none (S : List (Nat × Nat)) (j : Nat)
    (h : ∀ p ∈ S, p.1 ≠ j) : leftAt (wrapEdits S) j = [] := by
  induction S with
  | nil => rfl
  | cons p rest ih =>
    obtain ⟨s, e⟩ := p
    rw [wrapEdits, leftAt_cons, leftAt_cons]
    have hs : s ≠ j := h (s, e) (List.mem_cons_self _ _)
    simp only [if_neg hs]
    rw [ih (fun q hq => h q (List.mem_cons_of_mem _ hq))]
    rfl

theorem rightAt_wrapEdits_none (S : List (Nat × Nat)) (j : Nat)
    (h : ∀ p ∈ S, p.2 ≠ j) : rightAt (wrapEdits S) j = [] := by
  induction S with
  | nil => rfl
  | cons p rest ih =>
    obtain ⟨s, e⟩ := p
    rw [wrapEdits, rightAt_cons, rightAt_cons]
    have he : e ≠ j := h (s, e) (List.mem_cons_self _ _)
    simp only [if_neg he]
    rw [ih (fun q hq => h q (List.mem_cons_of_mem _ hq))]
    rfl

theorem ovwAt_wrapEdits (S : List (Nat × Nat)) (j : Nat) :
    ovwAt (wrapEdits S) j = Option.none := by
  induction S with
  | nil => rfl
  | cons p rest ih =>
    obtain ⟨s, e⟩ := p
    rw [wrapEdits, ovwAt_cons, ovwAt_cons, ih]

theorem leftAt_ovwEdits (S : List (Nat × Nat × List Char)) (j : Nat) :
    leftAt (ovwEdits S) j = [] := by
  induction S with
  | nil => rfl
  | cons p rest ih =>
    obtain ⟨s, e, c⟩ := p
    rw [ovwEdits, leftAt_cons, ih]
    rfl

theorem rightAt_ovwEdits (S : List (Nat × Nat × List Char)) (j : Nat) :
    rightAt (ovwEdits S) j = [] := by
  induction S with
  | nil => rfl
  | cons p rest ih =>
    obtain ⟨s, e, c⟩ := p
    rw [ovwEdits, rightAt_cons, ih]
    rfl

theorem ovwAt_ovwEdits_none (S : List (Nat × Nat × List Char)) (j : Nat)
    (h : ∀ p ∈ S, p.1 ≠ j) : ovwAt (ovwEdits S) j = Option.none := by
  induction S with
  | nil => rfl
  | cons p rest ih =>
    obtain ⟨s, e, c⟩ := p
    rw [ovwEdits, ovwAt_cons, ih (fun q hq => h q (List.mem_cons_of_mem _ hq))]
    have hs : s ≠ j := h (s, e, c) (List.mem_cons_self _ _)
    simp [hs]


theorem chainOk_mem (b : Nat) :
    ∀ T i, chainOk b i T → ∀ p ∈ T, i ≤ p.1 ∧ p.1 < p.2 ∧ p.2 ≤ b := by
  intro T
  induction T with
  | nil => intro i _ p hp; cases hp
  | cons q rest ih =>
    obtain ⟨s, e⟩ := q
    intro i h p hp
    simp only [chainOk] at h
    obtain ⟨h1, h2, h3, h4⟩ := h
    rcases List.mem_cons.mp hp with rfl | hmem
    · exact ⟨h1, h2, h3⟩
    · have := ih (e + 1) h4 p hmem
      omega

theorem chainOk2_mem (b : Nat) :
    ∀ T i, chainOk2 b i T → ∀ p ∈ T, i ≤ p.1 ∧ p.1 < p.2.1 ∧ p.2.1 ≤ b := by
  intro T
  induction T with
  | nil => intro i _ p hp; cases hp
  | cons q rest ih =>
    obtain ⟨s, e, c⟩ := q
    intro i h p hp
    simp only [chainOk2] at h
    obtain ⟨h1, h2, h3, h4⟩ := h
    rcases List.mem_cons.mp hp with rfl | hmem
    · exact ⟨h1, h2, h3⟩
    · have := ih e h4 p hmem
      omega

theorem noEditsAt_wrapEdits (S : List (Nat × Nat)) (j : Nat)
    (h : ∀ p ∈ S, p.1 ≠ j ∧ p.2 ≠ j) : noEditsAt (wrapEdits S) j :=
  ⟨leftAt_wrapEdits_none S j (fun p hp => (h p hp).1),
   rightAt_wrapEdits_none S j (fun p hp => (h p hp).2),
   ovwAt_wrapEdits S j⟩

theorem noEditsAt_ovwEdits (S : List (Nat × Nat × List Char)) (j : Nat)
    (h : ∀ p ∈ S, p.1 ≠ j) : noEditsAt (ovwEdits S) j :=
  ⟨leftAt_ovwEdits S j, rightAt_ovwEdits S j, ovwAt_ovwEdits_none S j h⟩

theorem wrapChain_shift (T : List (Nat × Nat)) (l : List Char) (c : Char) (i : Nat)
    (h : ∀ p ∈ T, i + 1 ≤ p.1 ∧ p.1 < p.2) :
    wrapChain T (c :: l) i = c :: wrapChain T l (i + 1) := by
  cases T with
  | nil => rfl
  | cons q rest =>
    obtain ⟨s, e⟩ := q
    obtain ⟨hs, hse⟩ := h (s, e) (List.mem_cons_self _ _)
    simp only [wrapChain]
    have h1 : s - i = (s - (i + 1)) + 1 := by omega
    have h2 : e - i = (e - (i + 1)) + 1 := by omega
    rw [h1, h2, List.take_succ_cons, List.drop_succ_cons, List.drop_succ_cons]
    simp [List.cons_append]

theorem renderWrapAux (S : List (Nat × Nat)) :
    ∀ T P l i, S = P ++ T → chainOk (i + l.length) i T →
      (∀ p ∈ P, p.1 < i ∧ p.2 < i) →
      renderFrom (wrapEdits S) l i = wrapChain T l i := by
  intro T
  induction T with
  | nil =>
    intro P l i hS hchain hP
    rw [wrapChain]
    apply renderFrom_no_edits
    intro j hj
    apply noEditsAt_wrapEdits
    intro p hp
    rw [hS, List.append_nil] at hp
    have := hP p hp
    omega
  | cons q T' ih =>
    obtain ⟨s, e⟩ := q
    intro P l i hS hchain hP
    simp only [chainOk] at hchain
    obtain ⟨his, hse, heb, hchain'⟩ := hchain
    have hmemT' := chainOk_mem (i + l.length) T' (e + 1) hchain'
    -- skip the gap before the site
    rw [renderFrom_skip (wrapEdits S) (s - i) l i ?gaps ?len]
    case gaps =>
      intro j hj1 hj2
      apply noEditsAt_wrapEdits
      intro p hp
      rw [hS] at hp
      rcases List.mem_append.mp hp with hp | hp
      · have := hP p hp; omega
      · rcases List.mem_cons.mp hp with rfl | hp
        · simp only []; omega
        · have := hmemT' p hp; omega
    case len => omega
    have harith1 : i + (s - i) = s := by omega
    rw [harith1]
    -- the remaining text is nonempty at the site start
    obtain ⟨c, r, hcr⟩ : ∃ c r, l.drop (s - i) = c :: r := by
      cases hdrop : l.drop (s - i) with
      | nil =>
        exfalso
        have := congrArg List.length hdrop
        rw [List.length_drop] at this
        simp at this
        omega
      | cons c r => exact ⟨c, r, rfl⟩
    have hrlen : r.length = l.length - (s - i) - 1 := by
      have := congrArg List.length hcr
      rw [List.length_drop] at this
      simp at this
      omega
    rw [hcr, renderFrom_cons]
    -- the boundary at the site start carries exactly the left wrap text
    have hleftS : leftAt (wrapEdits S) s = wrapLText := by
      rw [hS, wrapEdits_append, leftAt_append]
      rw [leftAt_wrapEdits_none P s (fun p hp => by have := hP p hp; omega)]
      show leftAt (Edit.insL s wrapLText :: Edit.insR e wrapRText :: wrapEdits T') s ++ [] = _
      rw [leftAt_cons, leftAt_cons]
      rw [leftAt_wrapEdits_none T' s (fun p hp => by have := hmemT' p hp; omega)]
      simp
    have hrightS : rightAt (wrapEdits S) s = [] := by
      rw [hS, wrapEdits_append, rightAt_append]
      rw [rightAt_wrapEdits_none P s (fun p hp => by have := hP p hp; omega)]
      show [] ++ rightAt (Edit.insL s wrapLText :: Edit.insR e wrapRText :: wrapEdits T') s = _
      rw [rightAt_cons, rightAt_cons]
      rw [rightAt_wrapEdits_none T' s (fun p hp => by have := hmemT' p hp; omega)]
      have hne : e ≠ s := by omega
      simp [hne]
    have hovwS : ovwAt (wrapEdits S) s = Option.none := ovwAt_wrapEdits S s
    rw [hleftS, hrightS, hovwS]
    dsimp only
    -- skip the inside of the site
    rw [renderFrom_skip (wrapEdits S) (e - s - 1) r (s + 1) ?gaps2 ?len2]
    case gaps2 =>
      intro j hj1 hj2
      apply noEditsAt_wrapEdits
      intro p hp
      rw [hS] at hp
      rcases List.mem_append.mp hp with hp | hp
      · have := hP p hp; omega
      · rcases List.mem_cons.mp hp with rfl | hp
        · simp only []; omega
        · have := hmemT' p hp; omega
    case len2 => omega
    have harith2 : s + 1 + (e - s - 1) = e := by omega
    rw [harith2]
    -- the boundary at the site end carries exactly the right wrap text
    have hleftE : leftAt (wrapEdits S) e = [] := by
      rw [hS, wrapEdits_append, leftAt_append]
      rw [leftAt_wrapEdits_none P e (fun p hp => by have := hP p hp; omega)]
      show leftAt (Edit.insL s wrapLText :: Edit.insR e wrapRText :: wrapEdits T') e ++ [] = _
      rw [leftAt_cons, leftAt_cons]
      rw [leftAt_wrapEdits_none T' e (fun p hp => by have := hmemT' p hp; omega)]
      have hne : s ≠ e := by omega
      simp [hne]
    have hrightE : rightAt (wrapEdits S) e = wrapRText := by
      rw [hS, wrapEdits_append, rightAt_append]
      rw [rightAt_wrapEdits_none P e (fun p hp => by have := hP p hp; omega)]
      show [] ++ rightAt (Edit.insL s wrapLText :: Edit.insR e wrapRText :: wrapEdits T') e = _
      rw [rightAt_cons, rightAt_cons]
      rw [rightAt_wrapEdits_none T' e (fun p hp => by have := hmemT' p hp; omega)]
      simp
    have hovwE : ovwAt (wrapEdits S) e = Option.none := ovwAt_wrapEdits S e
    -- the rendering at the site end: right wrap text, then the rest of the chain
    have hl2 : r.drop (e - s - 1) = l.drop (e - i) := by
      have hd1 : (l.drop (s - i)).drop (e - s) = l.drop (e - i) := by
        rw [List.drop_drop]
        congr 1
        omega
      rw [← hd1, hcr]
      have h5 : e - s = (e - s - 1) + 1 := by omega
      rw [h5, List.drop_succ_cons]
      simp
    have hend : renderFrom (wrapEdits S) (r.drop (e - s - 1)) e =
        wrapRText ++ wrapChain T' (r.drop (e - s - 1)) e := by
      cases hl2c : r.drop (e - s - 1) with
      | nil =>
        rw [renderFrom_nil, hleftE, hrightE]
        have hT' : T' = [] := by
          cases T' with
          | nil => rfl
          | cons q2 T2 =>
            exfalso
            obtain ⟨s2, e2⟩ := q2
            have hm := hmemT' (s2, e2) (List.mem_cons_self _ _)
            have hlen0 := congrArg List.length hl2c
            rw [List.length_drop] at hlen0
            simp at hlen0
            omega
        rw [hT']
        simp [wrapChain]
      | cons c2 r2 =>
        rw [renderFrom_cons, hleftE, hrightE, hovwE]
        dsimp only
        have hr2len : r2.length = l.length - (e - i) - 1 := by
          have h4 := congrArg List.length hl2c
          rw [List.length_drop] at h4
          simp at h4
          omega
        have hb' : chainOk (e + 1 + r2.length) (e + 1) T' := by
          have hbeq : e + 1 + r2.length = i + l.length ∨ T' = [] := by
            cases T' with
            | nil => exact Or.inr rfl
            | cons q2 T2 =>
              left
              obtain ⟨s2, e2⟩ := q2
              have hm := hmemT' (s2, e2) (List.mem_cons_self _ _)
              omega
          rcases hbeq with hbeq | hbeq
          · rw [hbeq]; exact hchain'
          · rw [hbeq]; trivial
        have hih := ih (P ++ [(s, e)]) r2 (e + 1) ?hS2 hb' ?hP2
        case hS2 => rw [hS]; simp
        case hP2 =>
          intro p hp
          rcases List.mem_append.mp hp with hp | hp
          · have := hP p hp; omega
          · simp at hp
            rw [hp]
            simp only []
            omega
        rw [hih]
        rw [wrapChain_shift T' r2 c2 e (fun p hp => by have := hmemT' p hp; omega)]
        simp
    rw [hend]
    -- assemble both sides
    simp only [wrapChain]
    have htake : (l.drop (s - i)).take (e - s) = c :: r.take (e - s - 1) := by
      rw [hcr]
      have h5 : e - s = (e - s - 1) + 1 := by omega
      rw [h5, List.take_succ_cons]
      simp
    rw [htake, hl2]
    simp [List.append_assoc, List.cons_append]


theorem renderOvwAux (S : List (Nat × Nat × List Char)) :
    ∀ T P l i, S = P ++ T → chainOk2 (i + l.length) i T →
      (∀ p ∈ P, p.1 < i) →
      renderFrom (ovwEdits S) l i = ovwChain T l i := by
  intro T
  induction T with
  | nil =>
    intro P l i hS hchain hP
    rw [ovwChain]
    apply renderFrom_no_edits
    intro j hj
    apply noEditsAt_ovwEdits
    intro p hp
    rw [hS, List.append_nil] at hp
    have := hP p hp
    omega
  | cons q T' ih =>
    obtain ⟨s, e, ct⟩ := q
    intro P l i hS hchain hP
    simp only [chainOk2] at hchain
    obtain ⟨his, hse, heb, hchain'⟩ := hchain
    have hmemT' := chainOk2_mem (i + l.length) T' e hchain'
    rw [renderFrom_skip (ovwEdits S) (s - i) l i ?gaps ?len]
    case gaps =>
      intro j hj1 hj2
      apply noEditsAt_ovwEdits
      intro p hp
      rw [hS] at hp
      rcases List.mem_append.mp hp with hp | hp
      · have := hP p hp; omega
      · rcases List.mem_cons.mp hp with rfl | hp
        · simp only []; omega
        · have := hmemT' p hp; omega
    case len => omega
    have harith1 : i + (s - i) = s := by omega
    rw [harith1]
    obtain ⟨c, r, hcr⟩ : ∃ c r, l.drop (s - i) = c :: r := by
      cases hdrop : l.drop (s - i) with
      | nil =>
        exfalso
        have := congrArg List.length hdrop
        rw [List.length_drop] at this
        simp at this
        omega
      | cons c r => exact ⟨c, r, rfl⟩
    have hrlen : r.length = l.length - (s - i) - 1 := by
      have := congrArg List.length hcr
      rw [List.length_drop] at this
      simp at this
      omega
    rw [hcr, renderFrom_cons]
    have hovwS : ovwAt (ovwEdits S) s = Option.some (e, ct) := by
      rw [hS, ovwEdits_append, ovwAt_append]
      rw [ovwAt_ovwEdits_none P s (fun p hp => by have := hP p hp; omega)]
      show (match ovwAt (Edit.ovw s e ct :: ovwEdits T') s with
        | Option.some x => Option.some x
        | Option.none => Option.none) = _
      rw [ovwAt_cons]
      rw [ovwAt_ovwEdits_none T' s (fun p hp => by have := hmemT' p hp; omega)]
      simp
    rw [leftAt_ovwEdits, rightAt_ovwEdits, hovwS]
    dsimp only
    have hl2 : r.drop (e - s - 1) = l.drop (e - i) := by
      have hd1 : (l.drop (s - i)).drop (e - s) = l.drop (e - i) := by
        rw [List.drop_drop]
        congr 1
        omega
      rw [← hd1, hcr]
      have h5 : e - s = (e - s - 1) + 1 := by omega
      rw [h5, List.drop_succ_cons]
      simp
    rw [hl2]
    have hih := ih (P ++ [(s, e, ct)]) (l.drop (e - i)) e ?hS2 ?hb ?hP2
    case hS2 => rw [hS]; simp
    case hb =>
      have hdl : (l.drop (e - i)).length = l.length - (e - i) := List.length_drop _ _
      have hbeq : e + (l.drop (e - i)).length = i + l.length := by omega
      rw [hbeq]
      exact hchain'
    case hP2 =>
      intro p hp
      rcases List.mem_append.mp hp with hp | hp
      · have := hP p hp; omega
      · simp at hp
        rw [hp]
        simp only []
        omega
    rw [hih]
    simp only [ovwChain]
    simp [List.append_assoc]

theorem renderWrap (S : List (Nat × Nat)) (l : List Char)
    (h : chainOk l.length 0 S) :
    renderFrom (wrapEdits S) l 0 = wrapChain S l 0 := by
  apply renderWrapAux S S [] l 0 rfl
  · rw [Nat.zero_add]; exact h
  · intro p hp; cases hp

theorem renderOvw (S : List (Nat × Nat × List Char)) (l : List Char)
    (h : chainOk2 l.length 0 S) :
    renderFrom (ovwEdits S) l 0 = ovwChain S l 0 := by
  apply renderOvwAux S S [] l 0 rfl
  · rw [Nat.zero_add]; exact h
  · intro p hp; cases hp



/-!
## Lemmas: the walks
-/

theorem exbind_ok {α β : Type} (x : α) (f : α → Except String β) :
    ((Except.ok x : Except String α) >>= f) = f x := rfl

theorem exbind_err {α β : Type} (msg : String) (f : α → Except String β) :
    ((Except.error msg : Except String α) >>= f) = Except.error msg := rfl

mutual
theorem visit_markerFree (method : String) (bundle : List (String × Chunk)) :
    ∀ (par : NodeOpt) (n : Node), markerFree n = true →
      visit method bundle par n = Except.ok []
  | _, .literal s e v raw, h => by
    have hraw : ¬ raw = MARKER := by
      simpa [markerFree] using h
    simp [visit, hraw]
  | par, .importExpr s e src, h =>
    visitOpt_markerFree method bundle (.some (.importExpr s e src)) src
      (by simpa [markerFree] using h)
  | par, .callExpr s e callee args, h => by
    have hf : markerFree callee = true ∧ markerFreeList args = true := by
      simpa [markerFree, Bool.and_eq_true] using h
    have h1 := visit_markerFree method bundle (.some (.callExpr s e callee args)) callee hf.1
    have h2 := visitList_markerFree method bundle (.some (.callExpr s e callee args)) args hf.2
    simp [visit, h1, h2, exbind_ok]
  | par, .other k s e ch, h =>
    visitList_markerFree method bundle (.some (.other k s e ch)) ch
      (by simpa [markerFree] using h)

theorem visitOpt_markerFree (method : String) (bundle : List (String × Chunk)) :
    ∀ (par : NodeOpt) (o : NodeOpt), markerFreeOpt o = true →
      visitOpt method bundle par o = Except.ok []
  | _, .none, _ => rfl
  | par, .some n, h => visit_markerFree method bundle par n (by simpa [markerFreeOpt] using h)

theorem visitList_markerFree (method : String) (bundle : List (String × Chunk)) :
    ∀ (par : NodeOpt) (l : NodeList), markerFreeList l = true →
      visitList method bundle par l = Except.ok []
  | _, .nil, _ => rfl
  | par, .cons hd tl, h => by
    have hf : markerFree hd = true ∧ markerFreeList tl = true := by
      simpa [markerFreeList, Bool.and_eq_true] using h
    have h1 := visit_markerFree method bundle par hd hf.1
    have h2 := visitList_markerFree method bundle par tl hf.2
    simp [visitList, h1, h2, exbind_ok]
end

theorem visitList_nlAppend (method : String) (bundle : List (String × Chunk))
    (par : NodeOpt) :
    ∀ a b, visitList method bundle par (nlAppend a b) = do
      let x ← visitList method bundle par a
      let y ← visitList method bundle par b
      Except.ok (x ++ y)
  | .nil, b => by
    cases hb : visitList method bundle par b with
    | error msg => simp [nlAppend, visitList, hb, exbind_ok, exbind_err]
    | ok y => simp [nlAppend, visitList, hb, exbind_ok, exbind_err]
  | .cons hd tl, b => by
    have ih := visitList_nlAppend method bundle par tl b
    cases hh : visit method bundle par hd with
    | error msg => simp [nlAppend, visitList, hh, exbind_ok, exbind_err]
    | ok x =>
      cases ht : visitList method bundle par tl with
      | error msg => simp [nlAppend, visitList, hh, ih, ht, exbind_ok, exbind_err]
      | ok y =>
        cases hb : visitList method bundle par b with
        | error msg => simp [nlAppend, visitList, hh, ih, ht, hb, exbind_ok, exbind_err]
        | ok z => simp [nlAppend, visitList, hh, ih, ht, hb, exbind_ok, exbind_err]


theorem getLast?_append_cases {α : Type} (a b : List α) :
    (a ++ b).getLast? =
      (match b.getLast? with
       | Option.some v => Option.some v
       | Option.none => a.getLast?) := by
  cases hb : b.getLast? with
  | some v =>
    have hbne : b ≠ [] := by
      intro h
      rw [h] at hb
      simp at hb
    rw [List.getLast?_append_of_ne_nil a hbne, hb]
  | none =>
    have hbe : b = [] := by
      cases b with
      | nil => rfl
      | cons x xs => simp [List.getLast?_concat] at hb
    rw [hbe]
    simp

mutual
theorem lastLit_eq (n : Node) :
    ∀ st, lastLit n st =
      (match (litValues n).getLast? with
       | Option.some v => Option.some v
       | Option.none => st)
  | st => by
    cases n with
    | literal s e v raw => simp [lastLit, litValues]
    | importExpr s e src => simpa [lastLit, litValues] using lastLitOpt_eq src st
    | callExpr s e callee args =>
      rw [show lastLit (Node.callExpr s e callee args) st =
        lastLitList args (lastLit callee st) from rfl]
      rw [lastLitList_eq args (lastLit callee st), lastLit_eq callee st]
      rw [show litValues (Node.callExpr s e callee args) =
        litValues callee ++ litValuesList args from rfl]
      rw [getLast?_append_cases]
      cases (litValuesList args).getLast? <;> cases (litValues callee).getLast? <;> rfl
    | other k s e ch => simpa [lastLit, litValues] using lastLitList_eq ch st

theorem lastLitOpt_eq (o : NodeOpt) :
    ∀ st, lastLitOpt o st =
      (match (litValuesOpt o).getLast? with
       | Option.some v => Option.some v
       | Option.none => st)
  | st => by
    cases o with
    | none => simp [lastLitOpt, litValuesOpt]
    | some n => simpa [lastLitOpt, litValuesOpt] using lastLit_eq n st

theorem lastLitList_eq (l : NodeList) :
    ∀ st, lastLitList l st =
      (match (litValuesList l).getLast? with
       | Option.some v => Option.some v
       | Option.none => st)
  | st => by
    cases l with
    | nil => simp [lastLitList, litValuesList]
    | cons hd tl =>
      rw [show lastLitList (NodeList.cons hd tl) st = lastLitList tl (lastLit hd st) from rfl]
      rw [lastLitList_eq tl (lastLit hd st), lastLit_eq hd st]
      rw [show litValuesList (NodeList.cons hd tl) =
        litValues hd ++ litValuesList tl from rfl]
      rw [getLast?_append_cases]
      cases (litValuesList tl).getLast? <;> cases (litValues hd).getLast? <;> rfl
end

theorem recoverName_fallback (n : Node) (h : notImportExpr n = true) :
    recoverName n =
      (match (litValues n).getLast? with
       | Option.some v => Option.some v
       | Option.none => Option.none) := by
  cases n with
  | literal s e v raw => simpa [recoverName] using lastLit_eq (Node.literal s e v raw) Option.none
  | importExpr s e src => simp [notImportExpr] at h
  | callExpr s e callee args =>
    simpa [recoverName] using lastLit_eq (Node.callExpr s e callee args) Option.none
  | other k s e ch => simpa [recoverName] using lastLit_eq (Node.other k s e ch) Option.none

theorem visit_single_site (method : String) (bundle : List (String × Chunk))
    (k : String) (r0 r1 cs ce is ie ls le ms me : Nat) (callee : Node)
    (pre post : NodeList) (nm nraw mv : String)
    (hcal : markerFree callee = true) (hpre : markerFreeList pre = true)
    (hpost : markerFreeList post = true) (hraw : nraw ≠ MARKER) (hnm : nm ≠ "") :
    visit method bundle NodeOpt.none
      (Node.other k r0 r1 (nlAppend pre (NodeList.cons
        (Node.callExpr cs ce callee (NodeList.cons
          (Node.importExpr is ie (NodeOpt.some (Node.literal ls le nm nraw)))
          (NodeList.cons (Node.literal ms me mv MARKER) NodeList.nil))) post))) =
    Except.ok [Edit.ovw is ie (quoteStr nm).data,
      Edit.ovw ms me (getDeps method bundle nm).data] := by
  rw [show visit method bundle NodeOpt.none
      (Node.other k r0 r1 (nlAppend pre (NodeList.cons
        (Node.callExpr cs ce callee (NodeList.cons
          (Node.importExpr is ie (NodeOpt.some (Node.literal ls le nm nraw)))
          (NodeList.cons (Node.literal ms me mv MARKER) NodeList.nil))) post))) =
      visitList method bundle (NodeOpt.some (Node.other k r0 r1 (nlAppend pre (NodeList.cons
        (Node.callExpr cs ce callee (NodeList.cons
          (Node.importExpr is ie (NodeOpt.some (Node.literal ls le nm nraw)))
          (NodeList.cons (Node.literal ms me mv MARKER) NodeList.nil))) post))))
        (nlAppend pre (NodeList.cons
        (Node.callExpr cs ce callee (NodeList.cons
          (Node.importExpr is ie (NodeOpt.some (Node.literal ls le nm nraw)))
          (NodeList.cons (Node.literal ms me mv MARKER) NodeList.nil))) post)) from rfl]
  rw [visitList_nlAppend]
  rw [visitList_markerFree method bundle _ pre hpre]
  rw [exbind_ok]
  rw [show visitList method bundle _ (NodeList.cons
      (Node.callExpr cs ce callee (NodeList.cons
        (Node.importExpr is ie (NodeOpt.some (Node.literal ls le nm nraw)))
        (NodeList.cons (Node.literal ms me mv MARKER) NodeList.nil))) post) =
    (do
      let x ← visit method bundle _ (Node.callExpr cs ce callee (NodeList.cons
        (Node.importExpr is ie (NodeOpt.some (Node.literal ls le nm nraw)))
        (NodeList.cons (Node.literal ms me mv MARKER) NodeList.nil)))
      let y ← visitList method bundle _ post
      Except.ok (x ++ y)) from rfl]
  rw [visitList_markerFree method bundle _ post hpost]
  have hcall : visit method bundle
      (NodeOpt.some (Node.other k r0 r1 (nlAppend pre (NodeList.cons
        (Node.callExpr cs ce callee (NodeList.cons
          (Node.importExpr is ie (NodeOpt.some (Node.literal ls le nm nraw)))
          (NodeList.cons (Node.literal ms me mv MARKER) NodeList.nil))) post))))
      (Node.callExpr cs ce callee (NodeList.cons
        (Node.importExpr is ie (NodeOpt.some (Node.literal ls le nm nraw)))
        (NodeList.cons (Node.literal ms me mv MARKER) NodeList.nil))) =
      Except.ok [Edit.ovw is ie (quoteStr nm).data,
        Edit.ovw ms me (getDeps method bundle nm).data] := by
    rw [show visit method bundle _ (Node.callExpr cs ce callee (NodeList.cons
        (Node.importExpr is ie (NodeOpt.some (Node.literal ls le nm nraw)))
        (NodeList.cons (Node.literal ms me mv MARKER) NodeList.nil))) =
      (do
        let a ← visit method bundle (NodeOpt.some (Node.callExpr cs ce callee
          (NodeList.cons (Node.importExpr is ie (NodeOpt.some (Node.literal ls le nm nraw)))
            (NodeList.cons (Node.literal ms me mv MARKER) NodeList.nil)))) callee
        let b ← visitList method bundle (NodeOpt.some (Node.callExpr cs ce callee
          (NodeList.cons (Node.importExpr is ie (NodeOpt.some (Node.literal ls le nm nraw)))
            (NodeList.cons (Node.literal ms me mv MARKER) NodeList.nil))))
          (NodeList.cons (Node.importExpr is ie (NodeOpt.some (Node.literal ls le nm nraw)))
            (NodeList.cons (Node.literal ms me mv MARKER) NodeList.nil))
        Except.ok (a ++ b)) from rfl]
    rw [visit_markerFree method bundle _ callee hcal, exbind_ok]
    simp only [visitList, visit, visitOpt]
    simp [hraw, hnm, recoverName, sourceValue, Node.nstart, Node.nend, exbind_ok,
      truthyStr]
  rw [hcall]
  rfl



theorem isPrefixOf_append_self (a b : List Char) : a.isPrefixOf (a ++ b) = true := by
  induction a with
  | nil => simp [List.isPrefixOf]
  | cons c rest ih => simp [List.isPrefixOf, ih]

theorem dropWhile_ws_append (w t : List Char) (hw : ∀ c ∈ w, isWsChar c = true) :
    (w ++ t).dropWhile isWsChar = t.dropWhile isWsChar := by
  induction w with
  | nil => rfl
  | cons c rest ih =>
    have hc := hw c (List.mem_cons_self _ _)
    simp only [List.cons_append, List.dropWhile_cons, hc, if_true]
    exact ih (fun d hd => hw d (List.mem_cons_of_mem _ hd))

theorem matchImportAt_of_siteText (code : List Char) (s e : Nat) (h : siteText code s e) :
    matchImportAt (code.drop s) = true := by
  obtain ⟨w, c0, mid, heq, hw, hc0⟩ := h
  have hsplit : code.drop s =
      importKw ++ (w ++ ('(' :: c0 :: (mid ++ ')' :: (code.drop s).drop (e - s)))) := by
    conv_lhs => rw [← List.take_append_drop (e - s) (code.drop s)]
    rw [heq]
    simp [List.append_assoc]
  rw [matchImportAt, hsplit, Bool.and_eq_true]
  constructor
  · exact isPrefixOf_append_self importKw _
  · rw [show (6 : Nat) = importKw.length from rfl, List.drop_left]
    rw [dropWhile_ws_append w _ hw]
    rw [List.dropWhile_cons]
    simp only [show isWsChar '(' = false from rfl, if_false, Bool.false_eq_true]
    rw [Bool.and_eq_true]
    constructor
    · simp only [bne_iff_ne, ne_eq]
      exact hc0
    · have hmem : ')' ∈ mid ++ ')' :: (code.drop s).drop (e - s) := by simp
      simp only [List.contains]
      simp [hmem]

theorem firstpass_of_matchAt :
    ∀ (l : List Char) (n : Nat), matchImportAt (l.drop n) = true → firstpass l = true
  | [], n, h => by
    rw [List.drop_nil] at h
    rw [show matchImportAt [] = false from rfl] at h
    cases h
  | c :: rest, 0, h => by
    rw [List.drop_zero] at h
    simp [firstpass, h]
  | c :: rest, n + 1, h => by
    rw [List.drop_succ_cons] at h
    have := firstpass_of_matchAt rest n h
    simp [firstpass, this]



theorem strStartsWith_prepend (X : String) : strStartsWith ("./" ++ X) "./" = true := by
  rw [strStartsWith, String.data_append]
  exact isPrefixOf_append_self "./".data X.data

theorem strDrop_prepend (X : String) : strDrop ("./" ++ X) 2 = X := by
  rw [strDrop, String.data_append]
  rfl

/-- C6 (amended): the resolver is invariant under prepending `./` to an
identifier that is not already relative-prefixed; it is invariant under
dropping the `.js` extension only when the configured method is not `import`
(and the stripped form is itself extension-free) — with `method: 'import'`
the two forms resolve to different literal lists (see the counterexample). -/
theorem C6_normalization (method : String) (bundle : List (String × Chunk)) (X : String) :
    (strStartsWith X "./" = false →
      getDeps method bundle ("./" ++ X) = getDeps method bundle X) ∧
    (method ≠ "import" → strStartsWith X "./" = false → strEndsWith X ".js" = true →
      strEndsWith (strDropRight X 3) ".js" = false →
      getDeps method bundle (strDropRight X 3) = getDeps method bundle X) := by
  constructor
  · intro hX
    rw [getDeps, getDeps, strStartsWith_prepend, strDrop_prepend, hX]
    simp
  · intro hm hX hend hsend
    have hsX : ∃ Y : List Char, X.data = Y ++ ".js".data := by
      have : ".js".data.isSuffixOf X.data = true := hend
      rw [List.isSuffixOf_iff_suffix] at this
      obtain ⟨Y, hY⟩ := this
      exact ⟨Y, hY.symm⟩
    obtain ⟨Y, hY⟩ := hsX
    have hXlen : X.data.length = Y.length + 3 := by
      rw [hY]
      simp
    have hstrip : (strDropRight X 3).data = Y := by
      rw [strDropRight, hY]
      simp
    have hsX2 : strStartsWith (strDropRight X 3) "./" = false := by
      by_contra hcon
      rw [Bool.not_eq_false] at hcon
      rw [strStartsWith] at hcon hX
      rw [hstrip] at hcon
      have : "./".data.isPrefixOf X.data = true := by
        rw [List.isPrefixOf_iff_prefix] at hcon ⊢
        rw [hY]
        exact hcon.trans (List.prefix_append Y _)
      rw [this] at hX
      cases hX
    have hjoin : strDropRight X 3 ++ ".js" = X := by
      apply String.ext
      rw [String.data_append, hstrip, hY]
    have hmb : (method == "import") = false := by
      simp [hm]
    rw [getDeps, getDeps, hX, hsX2]
    simp [hsend, hend, hjoin, hmb]


/-- Witness for C6 (amended) at `X = "b.js"`, `method = "preload"`. -/
theorem C6_normalization_witness :
    getDeps "preload" [("b.js", ⟨"chunk", "b.js", "", ["a.js"], []⟩)] ("./" ++ "b.js") =
      getDeps "preload" [("b.js", ⟨"chunk", "b.js", "", ["a.js"], []⟩)] "b.js" ∧
    getDeps "preload" [("b.js", ⟨"chunk", "b.js", "", ["a.js"], []⟩)] (strDropRight "b.js" 3) =
      getDeps "preload" [("b.js", ⟨"chunk", "b.js", "", ["a.js"], []⟩)] "b.js" :=
  ⟨(C6_normalization "preload" [("b.js", ⟨"chunk", "b.js", "", ["a.js"], []⟩)] "b.js").1
      (by decide),
   (C6_normalization "preload" [("b.js", ⟨"chunk", "b.js", "", ["a.js"], []⟩)] "b.js").2
      (by decide) (by decide) (by decide) (by decide)⟩

/-!
## Claim theorems: pass 2
-/

theorem finalizeChunk_single (parse : String → Option Node) (method : String)
    (bundle : List (String × Chunk)) (c : Chunk)
    (k : String) (r0 r1 cs ce is ie ls le ms me : Nat) (callee : Node)
    (pre post : NodeList) (nm nraw mv : String)
    (hc : c.type = "chunk") (hd : c.dynamicImports ≠ [])
    (hp : parse c.code = Option.some (Node.other k r0 r1 (nlAppend pre (NodeList.cons
        (Node.callExpr cs ce callee (NodeList.cons
          (Node.importExpr is ie (NodeOpt.some (Node.literal ls le nm nraw)))
          (NodeList.cons (Node.literal ms me mv MARKER) NodeList.nil))) post))))
    (hcal : markerFree callee = true) (hpre : markerFreeList pre = true)
    (hpost : markerFreeList post = true) (hraw : nraw ≠ MARKER) (hnm : nm ≠ "")
    (h1 : is < ie) (h2 : ie ≤ ms) (h3 : ms < me) (h4 : me ≤ c.code.data.length) :
    finalizeChunk parse method bundle c = Except.ok
      ({c with code := String.mk (c.code.data.take is ++ (quoteStr nm).data ++
        ((c.code.data.drop ie).take (ms - ie)) ++ (getDeps method bundle nm).data ++
        c.code.data.drop me)}, []) := by
  have hvisit := visit_single_site method bundle k r0 r1 cs ce is ie ls le ms me callee
    pre post nm nraw mv hcal hpre hpost hraw hnm
  have hchain : chainOk2 c.code.data.length 0
      [(is, ie, (quoteStr nm).data), (ms, me, (getDeps method bundle nm).data)] := by
    simp only [chainOk2]
    refine ⟨by omega, h1, by omega, h2, h3, h4, trivial⟩
  have hren := renderOvw
    [(is, ie, (quoteStr nm).data), (ms, me, (getDeps method bundle nm).data)]
    c.code.data hchain
  have hchainEq : ovwChain
      [(is, ie, (quoteStr nm).data), (ms, me, (getDeps method bundle nm).data)]
      c.code.data 0 =
      c.code.data.take is ++ (quoteStr nm).data ++
        ((c.code.data.drop ie).take (ms - ie)) ++ (getDeps method bundle nm).data ++
        c.code.data.drop me := by
    simp only [ovwChain, Nat.sub_zero]
    have hdd : ((c.code.data.drop ie).drop (me - ie)) = c.code.data.drop me := by
      rw [List.drop_drop]
      congr 1
      omega
    rw [hdd]
    simp [List.append_assoc]
  have hcond : ¬(c.type ≠ "chunk" ∨ c.dynamicImports = []) := by simp [hc, hd]
  rw [finalizeChunk, if_neg hcond, hp]
  dsimp only
  rw [show (Edit.ovw is ie (quoteStr nm).data ::
      [Edit.ovw ms me (getDeps method bundle nm).data]) = ovwEdits
      [(is, ie, (quoteStr nm).data), (ms, me, (getDeps method bundle nm).data)] from rfl] at hvisit
  rw [hvisit]
  dsimp only
  rw [hren, hchainEq]

/-- C1 (amended): for a chunk whose dynamic-load target resolves in the final
bundle to a chunk with static imports `deps ≠ []` (module-preserving case),
finalization rewrites the call site so the emitted call reads
`__loadDeps("target", "./a.js","./b.js")`: the original target as a plain
string literal, immediately followed by the dependency literals in graph
order, each one prefixed with `./` — not verbatim as they appear in the
graph's import list, which is what the claim stated. -/
theorem C1_emits_relative_deps (parse : String → Option Node) (method : String)
    (bundle : List (String × Chunk)) (c ch : Chunk) (deps : List String)
    (k : String) (r0 r1 cs ce is ie ls le ms me : Nat) (callee : Node)
    (pre post : NodeList) (nm nraw mv : String)
    (hc : c.type = "chunk") (hd : c.dynamicImports ≠ [])
    (hp : parse c.code = Option.some (Node.other k r0 r1 (nlAppend pre (NodeList.cons
        (Node.callExpr cs ce callee (NodeList.cons
          (Node.importExpr is ie (NodeOpt.some (Node.literal ls le nm nraw)))
          (NodeList.cons (Node.literal ms me mv MARKER) NodeList.nil))) post))))
    (hcal : markerFree callee = true) (hpre : markerFreeList pre = true)
    (hpost : markerFreeList post = true) (hraw : nraw ≠ MARKER) (hnm : nm ≠ "")
    (h1 : is < ie) (h2 : ie ≤ ms) (h3 : ms < me) (h4 : me ≤ c.code.data.length)
    (hstart : strStartsWith nm "./" = false) (hext : strEndsWith nm ".js" = true)
    (hlk : bundleGet bundle nm = Option.some ch) (him : ch.imports = deps)
    (hne : deps ≠ []) :
    getDeps method bundle nm = commaJoin (deps.map (fun s => quoteStr ("./" ++ s))) ∧
    finalizeChunk parse method bundle c = Except.ok
      ({c with code := String.mk (c.code.data.take is ++ (quoteStr nm).data ++
        ((c.code.data.drop ie).take (ms - ie)) ++
        (commaJoin (deps.map (fun s => quoteStr ("./" ++ s)))).data ++
        c.code.data.drop me)}, []) := by
  have hdeps : getDeps method bundle nm =
      commaJoin (deps.map (fun s => quoteStr ("./" ++ s))) := by
    have hlen : deps.length > 0 := by
      cases deps with
      | nil => exact absurd rfl hne
      | cons a l => simp
    simp [getDeps, hstart, hext, hlk, him, hlen]
  refine ⟨hdeps, ?_⟩
  have := finalizeChunk_single parse method bundle c k r0 r1 cs ce is ie ls le ms me
    callee pre post nm nraw mv hc hd hp hcal hpre hpost hraw hnm h1 h2 h3 h4
  rw [hdeps] at this
  exact this

/-- C3 (amended): for a chunk whose dynamic-load target has no static imports
in the final graph (or is absent from it), the resolver returns the empty
string, and finalization overwrites the marker literal with that empty
string; the `, ` separator inserted by pass 1 is not removed, so the
finalized call reads `loader("target", )` — with a dangling separator, which
the claim denied. -/
theorem C3_empty_deps (parse : String → Option Node) (method : String)
    (bundle : List (String × Chunk)) (c : Chunk)
    (k : String) (r0 r1 cs ce is ie ls le ms me : Nat) (callee : Node)
    (pre post : NodeList) (nm nraw mv : String)
    (hc : c.type = "chunk") (hd : c.dynamicImports ≠ [])
    (hp : parse c.code = Option.some (Node.other k r0 r1 (nlAppend pre (NodeList.cons
        (Node.callExpr cs ce callee (NodeList.cons
          (Node.importExpr is ie (NodeOpt.some (Node.literal ls le nm nraw)))
          (NodeList.cons (Node.literal ms me mv MARKER) NodeList.nil))) post))))
    (hcal : markerFree callee = true) (hpre : markerFreeList pre = true)
    (hpost : markerFreeList post = true) (hraw : nraw ≠ MARKER) (hnm : nm ≠ "")
    (h1 : is < ie) (h2 : ie ≤ ms) (h3 : ms < me) (h4 : me ≤ c.code.data.length)
    (hstart : strStartsWith nm "./" = false) (hext : strEndsWith nm ".js" = true)
    (hemp : bundleGet bundle nm = Option.none ∨
      ∃ ch, bundleGet bundle nm = Option.some ch ∧ ch.imports = []) :
    getDeps method bundle nm = "" ∧
    finalizeChunk parse method bundle c = Except.ok
      ({c with code := String.mk (c.code.data.take is ++ (quoteStr nm).data ++
        ((c.code.data.drop ie).take (ms - ie)) ++ c.code.data.drop me)}, []) := by
  have hdeps : getDeps method bundle nm = "" := by
    rcases hemp with hnone | ⟨ch, hsome, hempty⟩
    · simp [getDeps, hstart, hext, hnone]
    · simp [getDeps, hstart, hext, hsome, hempty]
  refine ⟨hdeps, ?_⟩
  have := finalizeChunk_single parse method bundle c k r0 r1 cs ce is ie ls le ms me
    callee pre post nm nraw mv hc hd hp hcal hpre hpost hraw hnm h1 h2 h3 h4
  rw [hdeps] at this
  simpa using this


/-- C1 counterexample: the emitted call site reads
`__loadDeps("t.js", "./a.js","./b.js")` — the dependency literals carry a
`./` prefix — and not `__loadDeps("t.js", "a.js","b.js")` with the
dependencies verbatim as in the graph's import list, as the claim states. -/
theorem C1_counterexample :
    finalizeChunk exParse "preload" exBundleFull exChunk =
      Except.ok ({exChunk with
        code := "__loadDeps(\"t.js\", \"./a.js\",\"./b.js\")"}, []) ∧
    ("__loadDeps(\"t.js\", \"./a.js\",\"./b.js\")" : String) ≠
      "__loadDeps(\"t.js\", \"a.js\",\"b.js\")" :=
  ⟨rfl, by decide⟩

/-- Witness for C1 (amended) at the concrete chunk `exChunk`. -/
theorem C1_emits_relative_deps_witness :
    getDeps "preload" exBundleFull "t.js" =
      commaJoin (["a.js", "b.js"].map (fun s => quoteStr ("./" ++ s))) ∧
    finalizeChunk exParse "preload" exBundleFull exChunk = Except.ok
      ({exChunk with code := String.mk (exChunk.code.data.take 11 ++
        (quoteStr "t.js").data ++ ((exChunk.code.data.drop 25).take 2) ++
        (commaJoin (["a.js", "b.js"].map (fun s => quoteStr ("./" ++ s)))).data ++
        exChunk.code.data.drop 44)}, []) :=
  C1_emits_relative_deps exParse "preload" exBundleFull exChunk
    ⟨"chunk", "t.js", "", ["a.js", "b.js"], []⟩ ["a.js", "b.js"]
    "Program" 0 45 0 44 11 25 18 24 27 44
    (Node.other "Identifier" 0 10 NodeList.nil) NodeList.nil NodeList.nil
    "t.js" "\"t.js\"" "__IMPORT_DEPS__"
    rfl (by decide) rfl rfl rfl rfl (by decide) (by decide)
    (by decide) (by decide) (by decide) (by decide)
    (by decide) (by decide) rfl rfl (by decide)

/-- C3 counterexample: for a target with no static imports the finalized call
site reads `__loadDeps("t.js", )` — the `, ` separator from the wrap remains
dangling before the closing parenthesis — and not `__loadDeps("t.js")`. -/
theorem C3_counterexample :
    finalizeChunk exParse "preload" exBundleEmpty exChunk =
      Except.ok ({exChunk with code := "__loadDeps(\"t.js\", )"}, []) ∧
    ("__loadDeps(\"t.js\", )" : String) ≠ "__loadDeps(\"t.js\")" :=
  ⟨rfl, by decide⟩

/-- Witness for C3 (amended) at the concrete chunk `exChunk`. -/
theorem C3_empty_deps_witness :
    getDeps "preload" exBundleEmpty "t.js" = "" ∧
    finalizeChunk exParse "preload" exBundleEmpty exChunk = Except.ok
      ({exChunk with code := String.mk (exChunk.code.data.take 11 ++
        (quoteStr "t.js").data ++ ((exChunk.code.data.drop 25).take 2) ++
        exChunk.code.data.drop 44)}, []) :=
  C3_empty_deps exParse "preload" exBundleEmpty exChunk
    "Program" 0 45 0 44 11 25 18 24 27 44
    (Node.other "Identifier" 0 10 NodeList.nil) NodeList.nil NodeList.nil
    "t.js" "\"t.js\"" "__IMPORT_DEPS__"
    rfl (by decide) rfl rfl rfl rfl (by decide) (by decide)
    (by decide) (by decide) (by decide) (by decide)
    (by decide) (by decide)
    (Or.inr ⟨⟨"chunk", "t.js", "", [], []⟩, rfl, rfl⟩)



/-!
## Claim theorems: pass 1 and the dependency resolver
-/

/-- C5: a source unit containing zero dynamic-load expressions is returned
unchanged by the transform: the hook returns `null` (no loader import is
injected, no edit is made, no warning is recorded). -/
theorem C5_no_sites_unchanged (parse : String → Option Node) (id code : String)
    (ast : Node) (hp : parse code = Option.some ast) (h0 : importSites ast = []) :
    transform parse id code = (Option.none, []) := by
  by_cases hid : id = VIRTUAL_ID_IMPORT
  · simp [transform, hid]
  · by_cases hfp : firstpass code.data
    · simp [transform, hid, hfp, hp, h0]
    · simp [transform, hid, hfp]

/-- Witness for C5 at a concrete unit with no dynamic import. -/
theorem C5_no_sites_unchanged_witness :
    transform
      (fun c => if c = "var x = 1;" then
        Option.some (Node.other "Program" 0 10 NodeList.nil) else Option.none)
      "a.js" "var x = 1;" = (Option.none, []) :=
  C5_no_sites_unchanged _ "a.js" "var x = 1;"
    (Node.other "Program" 0 10 NodeList.nil) (by simp) rfl

/-- C4: a source unit containing `N ≥ 1` dynamic-load expressions (listed by
`importSites` in walk order, well-formed and textually shaped like
`import\s*(...)`) is rewritten so that the output is exactly one prepended
loader-import statement followed by the unit's text in which each of the `N`
sites, and nothing else, is wrapped as
`__loadDeps(` ++ site ++ `, "__IMPORT_DEPS__")` — i.e. exactly `N` wrapper
calls, each with the original dynamic-load expression as first argument and
the marker literal as second argument (`wrapChain` is that explicit shape). -/
theorem C4_wraps_each_site (parse : String → Option Node) (id code : String)
    (ast : Node) (hid : id ≠ VIRTUAL_ID_IMPORT) (hp : parse code = Option.some ast)
    (hne : importSites ast ≠ [])
    (hchain : chainOk code.data.length 0 (importSites ast))
    (hshape : ∀ p ∈ importSites ast, siteText code.data p.1 p.2) :
    transform parse id code =
      (Option.some (importStmt ++ String.mk (wrapChain (importSites ast) code.data 0)), []) := by
  have hfp : firstpass code.data = true := by
    obtain ⟨p, hmem⟩ := List.exists_mem_of_ne_nil _ hne
    have hst := hshape p hmem
    exact firstpass_of_matchAt code.data p.1 (matchImportAt_of_siteText code.data p.1 p.2 hst)
  have hren := renderWrap (importSites ast) code.data hchain
  simp [transform, hid, hfp, hp, List.isEmpty_iff, hne, hren]

/-- Witness for C4 at the unit `f(import('x'))` with one dynamic-load site. -/
theorem C4_wraps_each_site_witness :
    transform
      (fun c => if c = "f(import('x'))" then
        Option.some (Node.other "Program" 0 14 (NodeList.cons
          (Node.other "ExpressionStatement" 0 14 (NodeList.cons
            (Node.callExpr 0 13 (Node.other "Identifier" 0 1 NodeList.nil)
              (NodeList.cons
                (Node.importExpr 2 13 (NodeOpt.some (Node.literal 9 12 "x" "'x'")))
                NodeList.nil)) NodeList.nil)) NodeList.nil))
        else Option.none)
      "a.js" "f(import('x'))" =
      (Option.some ("import \x7b__loadDeps\x7d from 'preloaddeps:import';\n" ++
        "f(__loadDeps(import('x'), \"__IMPORT_DEPS__\"))"), []) := by
  rw [C4_wraps_each_site _ "a.js" "f(import('x'))"
    (Node.other "Program" 0 14 (NodeList.cons
      (Node.other "ExpressionStatement" 0 14 (NodeList.cons
        (Node.callExpr 0 13 (Node.other "Identifier" 0 1 NodeList.nil)
          (NodeList.cons
            (Node.importExpr 2 13 (NodeOpt.some (Node.literal 9 12 "x" "'x'")))
            NodeList.nil)) NodeList.nil)) NodeList.nil))
    (by decide) (by simp) (by decide) (by decide) ?shape]
  case shape =>
    intro p hp
    have hp2 : p = ((2 : Nat), (13 : Nat)) := by
      simpa [importSites, importSitesOpt, importSitesList] using hp
    rw [hp2]
    exact ⟨[], '\'', ['x', '\''], by decide, by decide⟩
  rfl

/-- C2 (amended): in the finalize pass, for a marker whose enclosing call's
first argument is not a dynamic-import node, the recovered load-target
identifier is the value of the LAST literal node encountered in traversal
order among the argument's nodes (the inner walk keeps overwriting
`importChunkName`), not the first. -/
theorem C2_recovers_last_literal (n : Node) (h : notImportExpr n = true) :
    recoverName n = (litValues n).getLast? := by
  rw [recoverName_fallback n h]
  cases (litValues n).getLast? <;> rfl

/-- Witness for C2 (amended) at a concrete wrapped argument with two literals. -/
theorem C2_recovers_last_literal_witness :
    notImportExpr (Node.other "CallExpression" 11 28 (NodeList.cons
      (Node.literal 12 18 "a.js" "\"a.js\"") (NodeList.cons
      (Node.literal 20 26 "b.js" "\"b.js\"") NodeList.nil))) = true ∧
    recoverName (Node.other "CallExpression" 11 28 (NodeList.cons
      (Node.literal 12 18 "a.js" "\"a.js\"") (NodeList.cons
      (Node.literal 20 26 "b.js" "\"b.js\"") NodeList.nil))) =
    (litValues (Node.other "CallExpression" 11 28 (NodeList.cons
      (Node.literal 12 18 "a.js" "\"a.js\"") (NodeList.cons
      (Node.literal 20 26 "b.js" "\"b.js\"") NodeList.nil)))).getLast? :=
  ⟨rfl, C2_recovers_last_literal _ rfl⟩

/-- C2 counterexample: the source's inner walk recovers the value of the last
literal (`"b.js"`), not the first literal (`"a.js"`) as the claim states, and
the finalize walk rewrites the wrapper argument with the quoted last literal. -/
theorem C2_counterexample :
    visit "preload" []
      (NodeOpt.some (Node.callExpr 0 48 (Node.other "Identifier" 0 10 NodeList.nil)
        (NodeList.cons (Node.other "CallExpression" 11 28 (NodeList.cons
          (Node.literal 12 18 "a.js" "\"a.js\"") (NodeList.cons
          (Node.literal 20 26 "b.js" "\"b.js\"") NodeList.nil)))
          (NodeList.cons (Node.literal 30 47 "__IMPORT_DEPS__" "\"__IMPORT_DEPS__\"")
            NodeList.nil))))
      (Node.literal 30 47 "__IMPORT_DEPS__" "\"__IMPORT_DEPS__\"") =
      Except.ok [Edit.ovw 11 28 (quoteStr "b.js").data,
        Edit.ovw 30 47 (getDeps "preload" [] "b.js").data] ∧
    specFirstLiteralValue (Node.other "CallExpression" 11 28 (NodeList.cons
      (Node.literal 12 18 "a.js" "\"a.js\"") (NodeList.cons
      (Node.literal 20 26 "b.js" "\"b.js\"") NodeList.nil))) = Option.some "a.js" ∧
    quoteStr "b.js" ≠ quoteStr "a.js" :=
  ⟨rfl, rfl, by decide⟩

/-- C6 counterexample: with `method: 'import'`, resolving the extension-less
form `b` of `b.js` yields `"./a"` while resolving `b.js` yields `"./a.js"`,
so the resolver is not invariant under extension normalization. -/
theorem C6_counterexample :
    getDeps "import" [("b.js", ⟨"chunk", "b.js", "", ["a.js"], []⟩)] "b" = "\"./a\"" ∧
    getDeps "import" [("b.js", ⟨"chunk", "b.js", "", ["a.js"], []⟩)] "b.js" = "\"./a.js\"" ∧
    ("\"./a\"" : String) ≠ "\"./a.js\"" :=
  ⟨rfl, rfl, by decide⟩



theorem containsSub_iff (t : List Char) : ∀ s, containsSub t s = true ↔ t <:+: s
  | [] => by
    simp only [containsSub, List.isEmpty_iff, List.infix_nil]
  | c :: rest => by
    rw [containsSub, Bool.or_eq_true, List.isPrefixOf_iff_prefix, containsSub_iff t rest]
    constructor
    · rintro (h | h)
      · exact h.isInfix
      · exact List.infix_cons h
    · intro h
      rcases List.infix_cons_iff.mp h with h | h
      · exact Or.inl h
      · exact Or.inr h

theorem genAux_append (parse : String → Option Node) (method : String)
    (bundle : List (String × Chunk)) :
    ∀ xs ys, genAux parse method bundle (xs ++ ys) =
      (do
        let a ← genAux parse method bundle xs
        let b ← genAux parse method bundle ys
        Except.ok (a.1 ++ b.1, a.2 ++ b.2))
  | [], ys => by
    cases hy : genAux parse method bundle ys with
    | error msg => simp [genAux, hy, exbind_ok, exbind_err]
    | ok b => simp [genAux, hy, exbind_ok]
  | (n, c) :: rest, ys => by
    have ih := genAux_append parse method bundle rest ys
    cases hc : finalizeChunk parse method bundle c with
    | error msg => simp [genAux, hc, exbind_err]
    | ok r =>
      cases hr : genAux parse method bundle rest with
      | error msg => simp [genAux, hc, hr, ih, exbind_ok, exbind_err]
      | ok a =>
        cases hy : genAux parse method bundle ys with
        | error msg => simp [genAux, hc, hr, ih, hy, exbind_ok, exbind_err]
        | ok b => simp [genAux, hc, hr, ih, hy, exbind_ok]

/-- C8: a parse failure in either pass is recoverable.  Pass 1: a unit whose
text does not parse is left unchanged (the hook returns `null`) and a
`PARSE_ERROR` warning whose message contains the unit's id is recorded.
Pass 2: a chunk whose final code does not parse is left byte-identical, a
warning containing its file name is recorded, and every other entry of the
bundle is still processed — a parse error never aborts the whole build. -/
theorem C8_parse_error_recoverable
    (parse : String → Option Node) (method : String) (bundle : List (String × Chunk))
    (id code : String) (c : Chunk) (nm : String)
    (pre post : List (String × Chunk)) (P Q : List (String × Chunk) × List String)
    (ha1 : id ≠ VIRTUAL_ID_IMPORT) (ha2 : firstpass code.data = true)
    (ha3 : parse code = Option.none)
    (hb1 : c.type = "chunk") (hb2 : c.dynamicImports ≠ [])
    (hb3 : parse c.code = Option.none)
    (hpre : genAux parse method bundle pre = Except.ok P)
    (hpost : genAux parse method bundle post = Except.ok Q) :
    transform parse id code = (Option.none, [parseWarn id]) ∧
    (∃ u v, parseWarn id = u ++ id ++ v) ∧
    finalizeChunk parse method bundle c = Except.ok (c, [parseWarn c.fileName]) ∧
    genAux parse method bundle (pre ++ (nm, c) :: post) =
      Except.ok (P.1 ++ (nm, c) :: Q.1, P.2 ++ parseWarn c.fileName :: Q.2) := by
  have hfin : finalizeChunk parse method bundle c =
      Except.ok (c, [parseWarn c.fileName]) := by
    have hcond : ¬(c.type ≠ "chunk" ∨ c.dynamicImports = []) := by simp [hb1, hb2]
    rw [finalizeChunk, if_neg hcond, hb3]
  refine ⟨?_, ?_, hfin, ?_⟩
  · simp [transform, ha1, ha2, ha3]
  · exact ⟨"rollup-plugin-hoist-import-deps: failed to parse ", ".\n", rfl⟩
  · rw [genAux_append, hpre, exbind_ok]
    rw [show genAux parse method bundle ((nm, c) :: post) =
      (do
        let r ← finalizeChunk parse method bundle c
        let rs ← genAux parse method bundle post
        Except.ok ((nm, r.1) :: rs.1, r.2 ++ rs.2)) from rfl]
    rw [hfin, exbind_ok, hpost, exbind_ok, exbind_ok]
    simp

/-- Witness for C8: a unit and a chunk that fail to parse, with one further
asset entry after the failing chunk that is still processed. -/
theorem C8_parse_error_recoverable_witness :
    transform (fun _ => Option.none) "a.js" "f(import('x'))" =
      (Option.none, [parseWarn "a.js"]) ∧
    (∃ u v, parseWarn "a.js" = u ++ "a.js" ++ v) ∧
    finalizeChunk (fun _ => Option.none) "preload" []
      ⟨"chunk", "broken.js", "f(", [], ["t.js"]⟩ =
      Except.ok (⟨"chunk", "broken.js", "f(", [], ["t.js"]⟩, [parseWarn "broken.js"]) ∧
    genAux (fun _ => Option.none) "preload" []
      ([] ++ ("broken.js", (⟨"chunk", "broken.js", "f(", [], ["t.js"]⟩ : Chunk)) ::
        [("style.css", (⟨"asset", "style.css", "", [], []⟩ : Chunk))]) =
      Except.ok ([("broken.js", (⟨"chunk", "broken.js", "f(", [], ["t.js"]⟩ : Chunk)),
        ("style.css", (⟨"asset", "style.css", "", [], []⟩ : Chunk))],
        [parseWarn "broken.js"]) :=
  C8_parse_error_recoverable (fun _ => Option.none) "preload" []
    "a.js" "f(import('x'))" (⟨"chunk", "broken.js", "f(", [], ["t.js"]⟩ : Chunk) "broken.js"
    [] [("style.css", (⟨"asset", "style.css", "", [], []⟩ : Chunk))]
    (([], []) : List (String × Chunk) × List String)
    (([("style.css", (⟨"asset", "style.css", "", [], []⟩ : Chunk))], []) :
      List (String × Chunk) × List String)
    (by decide) (by decide) rfl rfl (by decide) rfl rfl rfl

/-- C9 is right about the configuration error — selecting the `custom` method
without a companion function fails at setup, before any unit is processed —
but wrong that this is the only fatal failure: evaluated at `crashBundle`
(a chunk whose own code contains the marker text as a plain string literal
outside a call), the finalize pass reads `parent.arguments[0]` of a node that
has no `arguments` property and throws a `TypeError`, aborting the build
under a perfectly valid configuration. -/
theorem C9_crash_on_stray_marker :
    hoistImportDeps ⟨Option.none, Option.none, Option.none, false, Option.none⟩ =
      Except.ok ⟨"preload", Option.some true, Option.none⟩ ∧
    hoistImportDeps ⟨Option.some "custom", Option.none, Option.none, false, Option.none⟩ =
      Except.error
        "hoistImportDeps: options.method was set to 'custom' but options.customPreload is not a function" ∧
    generateBundle crashParse "preload" crashBundle =
      Except.error "TypeError: Cannot read properties of undefined (reading 0)" :=
  ⟨rfl, rfl, rfl⟩



set_option maxRecDepth 100000 in
/-- C10: when `setAnonymousCrossOrigin` is explicitly set to any non-null
value — including `true` — the resolved flag is read from the never-set,
misspelt property `anononymousCrossOrigin` and is therefore `undefined`, so
the emitted loader template omits `crossOrigin: 'anonymous',`; the attribute
is emitted only when `setAnonymousCrossOrigin` is left unset (defaulting the
flag to `true`). -/
theorem C10_crossorigin_misspelt (o : RawOptions) (b : Bool) (res : ResolvedOptions)
    (h1 : o.anononymousCrossOrigin = Option.none)
    (h2 : o.setAnonymousCrossOrigin = Option.some b)
    (h3 : hoistImportDeps o = Except.ok res) :
    res.setAnonymousCrossOrigin = Option.none ∧
    crossOriginFrag res = "" ∧
    (res.baseUrl = Option.none → ∀ tpl, load res VIRTUAL_ID_IMPORT = Option.some tpl →
      ¬ ("crossOrigin".data <:+: tpl.data)) ∧
    (∀ o2 res2, o2.setAnonymousCrossOrigin = Option.none →
      hoistImportDeps o2 = Except.ok res2 →
      crossOriginFrag res2 = "crossOrigin: 'anonymous'," ∧
      ∀ tpl2, load res2 VIRTUAL_ID_IMPORT = Option.some tpl2 →
        ("crossOrigin: 'anonymous',".data <:+: tpl2.data)) := by
  have hres : res.setAnonymousCrossOrigin = Option.none := by
    rw [hoistImportDeps] at h3
    simp only [h2, h1, Option.isSome_some, if_true] at h3
    split at h3
    · cases h3
    · cases h3
      rfl
  have hfrag : crossOriginFrag res = "" := by
    rw [crossOriginFrag, hres]
  refine ⟨hres, hfrag, ?_, ?_⟩
  · intro hbase tpl htpl
    rw [load, if_pos rfl] at htpl
    rw [baseUrlFrag, hbase, hfrag] at htpl
    cases htpl
    rw [← containsSub_iff]
    simp only [Bool.not_eq_true]
    rw [show (loadTplA ++ "" ++ loadTplB ++ "" ++ loadTplC).data =
      (loadTplA ++ "" ++ loadTplB ++ "" ++ loadTplC).data from rfl]
    decide
  · intro o2 res2 hset2 h32
    have hres2 : res2.setAnonymousCrossOrigin = Option.some true := by
      rw [hoistImportDeps] at h32
      simp only [hset2, Option.isSome_none, if_false] at h32
      split at h32
      · cases h32
      · cases h32
        rfl
    have hfrag2 : crossOriginFrag res2 = "crossOrigin: 'anonymous'," := by
      rw [crossOriginFrag, hres2]
    refine ⟨hfrag2, ?_⟩
    intro tpl2 htpl2
    rw [load, if_pos rfl] at htpl2
    cases htpl2
    rw [hfrag2]
    rw [String.data_append, String.data_append, String.data_append, String.data_append]
    exact List.infix_append _ _ _

/-- Witness for C10 at `setAnonymousCrossOrigin: true` (and at the unset
default on the emitted side). -/
theorem C10_crossorigin_misspelt_witness :
    (⟨Option.none, Option.some true, Option.none, false, Option.none⟩ :
      RawOptions).anononymousCrossOrigin = Option.none ∧
    (⟨Option.none, Option.some true, Option.none, false, Option.none⟩ :
      RawOptions).setAnonymousCrossOrigin = Option.some true ∧
    hoistImportDeps ⟨Option.none, Option.some true, Option.none, false, Option.none⟩ =
      Except.ok ⟨"preload", Option.none, Option.none⟩ ∧
    ((⟨"preload", Option.none, Option.none⟩ : ResolvedOptions).setAnonymousCrossOrigin =
      Option.none ∧
     crossOriginFrag ⟨"preload", Option.none, Option.none⟩ = "" ∧
     ((⟨"preload", Option.none, Option.none⟩ : ResolvedOptions).baseUrl = Option.none →
      ∀ tpl, load ⟨"preload", Option.none, Option.none⟩ VIRTUAL_ID_IMPORT =
        Option.some tpl → ¬ ("crossOrigin".data <:+: tpl.data)) ∧
     (∀ o2 res2, o2.setAnonymousCrossOrigin = Option.none →
      hoistImportDeps o2 = Except.ok res2 →
      crossOriginFrag res2 = "crossOrigin: 'anonymous'," ∧
      ∀ tpl2, load res2 VIRTUAL_ID_IMPORT = Option.some tpl2 →
        ("crossOrigin: 'anonymous',".data <:+: tpl2.data))) :=
  ⟨rfl, rfl, rfl,
   C10_crossorigin_misspelt
     ⟨Option.none, Option.some true, Option.none, false, Option.none⟩ true
     ⟨"preload", Option.none, Option.none⟩ rfl rfl rfl⟩


end HoistImportDeps

namespace HoistImportDeps

/-!
## Lemmas: marker occurrences in rendered output
-/

theorem infixAt_isInfix {t s : List Char} {p : Nat} (h : infixAt t s p) : t <:+: s := by
  rw [infixAt] at h
  refine ⟨s.take p, (s.drop p).drop t.length, ?_⟩
  conv_rhs => rw [← List.take_append_drop p s]
  rw [List.append_assoc]
  congr 1
  conv_rhs => rw [← List.take_append_drop t.length (s.drop p)]
  rw [h]

theorem infix_infixAt {t s : List Char} (h : t <:+: s) : ∃ p, infixAt t s p := by
  obtain ⟨u, v, huv⟩ := h
  refine ⟨u.length, ?_⟩
  rw [infixAt, ← huv, List.append_assoc, List.drop_left, List.take_left]

theorem infixAt_bound {t s : List Char} {p : Nat} (ht : t ≠ []) (h : infixAt t s p) :
    p + t.length ≤ s.length := by
  rw [infixAt] at h
  have hmin := congrArg List.length h
  rw [List.length_take, List.length_drop] at hmin
  have htl : t.length ≠ 0 := by
    intro h0
    exact ht (List.eq_nil_of_length_eq_zero h0)
  omega

theorem infix_append_cases {t a b : List Char} (h : t <:+: a ++ b) :
    t <:+: a ∨ t <:+: b ∨
      ((∃ ch, a.getLast? = Option.some ch ∧ ch ∈ t) ∧
       (∃ ch, b.head? = Option.some ch ∧ ch ∈ t)) := by
  obtain ⟨u, v, huv⟩ := h
  have hlen := congrArg List.length huv
  simp only [List.length_append] at hlen
  by_cases hc1 : u.length + t.length ≤ a.length
  · left
    have htake := congrArg (List.take a.length) huv
    rw [List.take_left, List.append_assoc, List.take_append_eq_append_take,
      List.take_of_length_le (show u.length ≤ a.length by omega),
      List.take_append_eq_append_take,
      List.take_of_length_le (show t.length ≤ a.length - u.length by omega)] at htake
    exact ⟨u, (v.take (a.length - u.length - t.length)), by
      rw [List.append_assoc]; exact htake⟩
  · by_cases hc2 : a.length ≤ u.length
    · right; left
      have hdropp := congrArg (List.drop a.length) huv
      rw [List.drop_left, List.append_assoc, List.drop_append_eq_append_drop,
        show a.length - u.length = 0 from by omega, List.drop_zero] at hdropp
      exact ⟨u.drop a.length, v, by rw [List.append_assoc]; exact hdropp⟩
    · right; right
      have hA : 0 < a.length := by omega
      have hB : 0 < b.length := by omega
      have hlast : (a ++ b)[a.length - 1]? = a.getLast? := by
        rw [List.getElem?_append, if_pos (by omega), List.getLast?_eq_getElem?]
      have hhead : (a ++ b)[a.length]? = b.head? := by
        rw [List.getElem?_append, if_neg (by omega), Nat.sub_self, List.head?_eq_getElem?]
      have hidx : ∀ k, k < t.length → (u ++ t ++ v)[u.length + k]? = t[k]? := by
        intro k hk
        rw [List.append_assoc, List.getElem?_append_right (by omega),
          Nat.add_sub_cancel_left, List.getElem?_append, if_pos hk]
      constructor
      · have hk : a.length - 1 - u.length < t.length := by omega
        have hix := hidx (a.length - 1 - u.length) hk
        rw [show u.length + (a.length - 1 - u.length) = a.length - 1 from by omega,
          huv, hlast, List.getElem?_eq_getElem hk] at hix
        exact ⟨_, hix, List.getElem_mem hk⟩
      · have hk : a.length - u.length < t.length := by omega
        have hix := hidx (a.length - u.length) hk
        rw [show u.length + (a.length - u.length) = a.length from by omega,
          huv, hhead, List.getElem?_eq_getElem hk] at hix
        exact ⟨_, hix, List.getElem_mem hk⟩

theorem notInfixAppend {t a b : List Char}
    (ha : ¬ t <:+: a) (hb : ¬ t <:+: b)
    (hblock : (∃ ch, a.getLast? = Option.some ch ∧ ch ∉ t) ∨
      (∃ ch, b.head? = Option.some ch ∧ ch ∉ t) ∨ a = [] ∨ b = []) :
    ¬ t <:+: (a ++ b) := by
  intro h
  rcases infix_append_cases h with h | h | ⟨⟨c1, hc1, hm1⟩, ⟨c2, hc2, hm2⟩⟩
  · exact ha h
  · exact hb h
  rcases hblock with ⟨ch, hch, hnot⟩ | ⟨ch, hch, hnot⟩ | rfl | rfl
  · rw [hch] at hc1
    cases hc1
    exact hnot hm1
  · rw [hch] at hc2
    cases hc2
    exact hnot hm2
  · cases hc1
  · cases hc2

end HoistImportDeps

namespace HoistImportDeps

theorem infixAt_drop {t s : List Char} {a q : Nat} :
    infixAt t (s.drop a) q ↔ infixAt t s (a + q) := by
  rw [infixAt, infixAt, List.drop_drop]

theorem infixAt_take {t l : List Char} {n q : Nat} (ht : t ≠ [])
    (h : infixAt t (l.take n) q) : infixAt t l q ∧ q + t.length ≤ n := by
  rw [infixAt, List.drop_take, List.take_take] at h
  have hlen := congrArg List.length h
  simp only [List.length_take, List.length_drop] at hlen
  have htl : t.length ≠ 0 := fun h0 => ht (List.eq_nil_of_length_eq_zero h0)
  have hmin : min t.length (n - q) = t.length := by omega
  rw [hmin] at h
  exact ⟨h, by omega⟩

theorem slice_getLast {l : List Char} {a n : Nat} (h1 : 0 < n) (h2 : a + n ≤ l.length) :
    ((l.drop a).take n).getLast? = l[a + n - 1]? := by
  rw [List.getLast?_eq_getElem?]
  have hlen : ((l.drop a).take n).length = n := by
    rw [List.length_take, List.length_drop]; omega
  rw [hlen, List.getElem?_take_of_lt (by omega), List.getElem?_drop,
    show a + (n - 1) = a + n - 1 from by omega]

theorem notInfix_single {t : List Char} {c : Char} (ht : t ≠ []) (hc : c ∉ t) :
    ¬ t <:+: [c] := by
  rintro ⟨u, v, huv⟩
  have hlen := congrArg List.length huv
  simp only [List.length_append, List.length_cons, List.length_nil] at hlen
  have htl : t.length ≠ 0 := fun h0 => ht (List.eq_nil_of_length_eq_zero h0)
  have hu : u = [] := List.eq_nil_of_length_eq_zero (by omega)
  have hv : v = [] := List.eq_nil_of_length_eq_zero (by omega)
  rw [hu, hv, List.nil_append, List.append_nil] at huv
  rw [huv] at hc
  exact hc (List.mem_singleton.mpr rfl)

theorem quoteStr_data (s : String) : (quoteStr s).data = ('"' :: s.data) ++ ['"'] := by
  rw [quoteStr, String.data_append, String.data_append]
  rfl

theorem notInfix_quoted {t : List Char} {nm : String} (ht : t ≠ []) (hq : '"' ∉ t)
    (hn : ¬ t <:+: nm.data) : ¬ t <:+: (quoteStr nm).data := by
  rw [quoteStr_data]
  have hsingle : ¬ t <:+: ['"'] := notInfix_single ht hq
  have hleft : ¬ t <:+: '"' :: nm.data := by
    rw [show ('"' :: nm.data) = ['"'] ++ nm.data from rfl]
    exact notInfixAppend hsingle hn (Or.inl ⟨'"', rfl, hq⟩)
  exact notInfixAppend hleft hsingle (Or.inr (Or.inl ⟨'"', rfl, hq⟩))

theorem commaJoin_quote_shape (f : String → String) :
    ∀ l : List String, l ≠ [] →
      ∃ mid, (commaJoin (l.map fun s => quoteStr (f s))).data = ('"' :: mid) ++ ['"']
  | [], h => absurd rfl h
  | [x], _ => ⟨(f x).data, by
      rw [show commaJoin ([x].map fun s => quoteStr (f s)) = quoteStr (f x) from rfl,
        quoteStr_data]⟩
  | x :: y :: rest, _ => by
    obtain ⟨mid, hmid⟩ := commaJoin_quote_shape f (y :: rest) (by simp)
    refine ⟨(f x).data ++ '"' :: ',' :: '"' :: mid, ?_⟩
    rw [show commaJoin ((x :: y :: rest).map fun s => quoteStr (f s)) =
      quoteStr (f x) ++ "," ++ commaJoin ((y :: rest).map fun s => quoteStr (f s)) from rfl]
    rw [String.data_append, String.data_append, hmid, quoteStr_data]
    simp

theorem getDeps_shape (method : String) (bundle : List (String × Chunk)) (nm : String) :
    getDeps method bundle nm = "" ∨
      ∃ mid, (getDeps method bundle nm).data = ('"' :: mid) ++ ['"'] := by
  simp only [getDeps]
  split
  · split
    · right
      apply commaJoin_quote_shape
      intro h
      simp_all
    · exact Or.inl rfl
  · exact Or.inl rfl

theorem finSites_mem (method : String) (bundle : List (String × Chunk)) (b : Nat) :
    ∀ (fs : List FinSite) (j : Nat),
      chainOk2 b j (finSiteTriples method bundle fs) →
      ∀ s ∈ fs, j ≤ s.is ∧ s.is < s.ie ∧ s.ie ≤ s.ms ∧ s.ms < s.me ∧ s.me ≤ b
  | [], j, _, s, hs => absurd hs (List.not_mem_nil s)
  | f :: rest, j, hchain, s, hs => by
    rw [finSiteTriples] at hchain
    simp only [chainOk2] at hchain
    obtain ⟨h1, h2, h3, h4, h5, h6, h7⟩ := hchain
    rcases List.mem_cons.mp hs with rfl | hmem
    · exact ⟨h1, h2, h4, h5, h6⟩
    · have := finSites_mem method bundle b rest f.me h7 s hmem
      omega

theorem marker_in_MARKER : markerInner <:+: MARKER.data :=
  (containsSub_iff markerInner MARKER.data).mp (by decide)

mutual
theorem markerFree_of_rawOk (code : List Char) (hno : ¬ markerInner <:+: code) :
    ∀ n : Node, markerRawOk code n → markerFree n = true
  | .literal s e v raw, h => by
    rw [markerFree]
    simp only [bne_iff_ne, ne_eq]
    intro hr
    obtain ⟨htext, _⟩ := h hr
    exact hno (List.IsInfix.trans marker_in_MARKER (infixAt_isInfix htext))
  | .importExpr s e src, h => markerFreeOpt_of_rawOk code hno src h
  | .callExpr s e callee args, h => by
    rw [markerFree, Bool.and_eq_true]
    exact ⟨markerFree_of_rawOk code hno callee h.1,
      markerFreeList_of_rawOk code hno args h.2⟩
  | .other k s e ch, h => markerFreeList_of_rawOk code hno ch h

theorem markerFreeOpt_of_rawOk (code : List Char) (hno : ¬ markerInner <:+: code) :
    ∀ o : NodeOpt, markerRawOkOpt code o → markerFreeOpt o = true
  | .none, _ => rfl
  | .some n, h => markerFree_of_rawOk code hno n h

theorem markerFreeList_of_rawOk (code : List Char) (hno : ¬ markerInner <:+: code) :
    ∀ l : NodeList, markerRawOkList code l → markerFreeList l = true
  | .nil, _ => rfl
  | .cons hd tl, h => by
    rw [markerFreeList, Bool.and_eq_true]
    exact ⟨markerFree_of_rawOk code hno hd h.1,
      markerFreeList_of_rawOk code hno tl h.2⟩
end

end HoistImportDeps

namespace HoistImportDeps

theorem noMarkerChain (method : String) (bundle : List (String × Chunk)) (code : List Char) :
    ∀ (fs : List FinSite) (i : Nat),
      chainOk2 code.length i (finSiteTriples method bundle fs) →
      (∀ p, i ≤ p → infixAt markerInner code p → ∃ s ∈ fs, p = s.ms + 1) →
      (∀ s ∈ fs, s.me = s.ms + 17) →
      (∀ s ∈ fs, s.ie = s.ms ∨
        ∃ ch, code[s.ms - 1]? = Option.some ch ∧ ch ∉ markerInner) →
      (∀ s ∈ fs, ¬ markerInner <:+: s.nm.data) →
      (∀ s ∈ fs, ¬ markerInner <:+: (getDeps method bundle s.nm).data) →
      ¬ markerInner <:+: ovwChain (finSiteTriples method bundle fs) (code.drop i) i
  | [], i, _, hocc, _, _, _, _ => by
    simp only [finSiteTriples, ovwChain]
    intro h
    obtain ⟨q, hq⟩ := infix_infixAt h
    obtain ⟨s, hs, _⟩ := hocc (i + q) (Nat.le_add_right i q) (infixAt_drop.mp hq)
    exact absurd hs (List.not_mem_nil s)
  | f :: rest, i, hchain, hocc, hraw, hsep, hnm, hdeps => by
    have hmkne : markerInner ≠ ([] : List Char) := by decide
    have hmklen : markerInner.length = 15 := by decide
    have hchain0 := hchain
    rw [finSiteTriples] at hchain0
    simp only [chainOk2] at hchain0
    obtain ⟨h1, h2, h3, h4, h5, h6, h7⟩ := hchain0
    have hrestmem := finSites_mem method bundle code.length rest f.me h7
    have hfme : f.me = f.ms + 17 := hraw f (List.mem_cons_self f rest)
    simp only [finSiteTriples, ovwChain]
    have hd1 : (code.drop i).drop (f.ie - i) = code.drop f.ie := by
      rw [List.drop_drop, show i + (f.ie - i) = f.ie from by omega]
    have hd2 : (code.drop f.ie).drop (f.me - f.ie) = code.drop f.me := by
      rw [List.drop_drop, show f.ie + (f.me - f.ie) = f.me from by omega]
    rw [hd1, hd2]
    have hA : ¬ markerInner <:+: (code.drop i).take (f.is - i) := by
      intro h
      obtain ⟨q, hq⟩ := infix_infixAt h
      obtain ⟨hq1, hq2⟩ := infixAt_take hmkne hq
      obtain ⟨s, hs, hps⟩ := hocc (i + q) (Nat.le_add_right i q) (infixAt_drop.mp hq1)
      rcases List.mem_cons.mp hs with rfl | hmem
      · omega
      · have := hrestmem s hmem
        omega
    have hB : ¬ markerInner <:+: (code.drop f.ie).take (f.ms - f.ie) := by
      intro h
      obtain ⟨q, hq⟩ := infix_infixAt h
      obtain ⟨hq1, hq2⟩ := infixAt_take hmkne hq
      obtain ⟨s, hs, hps⟩ := hocc (f.ie + q) (by omega) (infixAt_drop.mp hq1)
      rcases List.mem_cons.mp hs with rfl | hmem
      · omega
      · have := hrestmem s hmem
        omega
    have hqn : ¬ markerInner <:+: (quoteStr f.nm).data :=
      notInfix_quoted hmkne (by decide) (hnm f (List.mem_cons_self f rest))
    have hdp : ¬ markerInner <:+: (getDeps method bundle f.nm).data :=
      hdeps f (List.mem_cons_self f rest)
    have hocc2 : ∀ p, f.me ≤ p → infixAt markerInner code p →
        ∃ s ∈ rest, p = s.ms + 1 := by
      intro p hp hinf
      obtain ⟨s, hs, hps⟩ := hocc p (by omega) hinf
      rcases List.mem_cons.mp hs with rfl | hmem
      · exact absurd hps (by omega)
      · exact ⟨s, hmem, hps⟩
    have hC := noMarkerChain method bundle code rest f.me h7 hocc2
      (fun s hs => hraw s (List.mem_cons_of_mem f hs))
      (fun s hs => hsep s (List.mem_cons_of_mem f hs))
      (fun s hs => hnm s (List.mem_cons_of_mem f hs))
      (fun s hs => hdeps s (List.mem_cons_of_mem f hs))
    have hempty : ¬ markerInner <:+: ([] : List Char) := by
      intro h
      exact hmkne (List.infix_nil.mp h)
    have hBdp : ¬ markerInner <:+:
        ((code.drop f.ie).take (f.ms - f.ie) ++ (getDeps method bundle f.nm).data) := by
      rcases getDeps_shape method bundle f.nm with hsh | ⟨mid, hsh⟩
      · rw [hsh]
        exact notInfixAppend hB hempty (Or.inr (Or.inr (Or.inr rfl)))
      · rw [hsh]
        exact notInfixAppend hB (hsh ▸ hdp) (Or.inr (Or.inl ⟨'"', rfl, by decide⟩))
    have hBdpC : ¬ markerInner <:+:
        (((code.drop f.ie).take (f.ms - f.ie) ++ (getDeps method bundle f.nm).data) ++
          ovwChain (finSiteTriples method bundle rest) (code.drop f.me) f.me) := by
      apply notInfixAppend hBdp hC
      rcases getDeps_shape method bundle f.nm with hsh | ⟨mid, hsh⟩
      · rcases Nat.eq_zero_or_pos (f.ms - f.ie) with hz | hpos
        · right; right; left
          rw [hz, List.take_zero, List.nil_append, hsh]
        · rcases hsep f (List.mem_cons_self f rest) with he | ⟨ch, hch, hchn⟩
          · exact absurd he (by omega)
          · left
            refine ⟨ch, ?_, hchn⟩
            rw [hsh, show ("" : String).data = [] from rfl, List.append_nil,
              slice_getLast hpos (by omega),
              show f.ie + (f.ms - f.ie) - 1 = f.ms - 1 from by omega]
            exact hch
      · left
        refine ⟨'"', ?_, by decide⟩
        rw [hsh, ← List.append_assoc, List.getLast?_concat]
    have hqnX : ¬ markerInner <:+: ((quoteStr f.nm).data ++
        (((code.drop f.ie).take (f.ms - f.ie) ++ (getDeps method bundle f.nm).data) ++
          ovwChain (finSiteTriples method bundle rest) (code.drop f.me) f.me)) := by
      apply notInfixAppend hqn hBdpC
      left
      refine ⟨'"', ?_, by decide⟩
      rw [quoteStr_data, List.getLast?_concat]
    rw [List.append_assoc]
    apply notInfixAppend hA hqnX
    right; left
    refine ⟨'"', ?_, by decide⟩
    rw [quoteStr_data]
    rfl

end HoistImportDeps

namespace HoistImportDeps

/-- C7: the finalize pass is safely non-reentrant.  For a chunk whose walk
collected the two overwrites of each recovered marker site (`fs`), the
finalized text contains no occurrence of the marker text at all — every
occurrence in the original code was inside an overwritten range and the
replacement pieces cannot form it — so a second finalize run over the
already-finalized code, under any parse of it whose literals are
raw-faithful, matches no marker literal and returns the chunk byte-identical
with no warnings. -/
theorem C7_finalize_not_reentrant (parse : String → Option Node) (method : String)
    (bundle : List (String × Chunk)) (c : Chunk) (ast : Node) (fs : List FinSite)
    (out : String)
    (h1 : c.type = "chunk") (h2 : c.dynamicImports ≠ [])
    (h3 : parse c.code = Option.some ast)
    (h4 : visit method bundle NodeOpt.none ast =
      Except.ok (ovwEdits (finSiteTriples method bundle fs)))
    (h5 : chainOk2 c.code.data.length 0 (finSiteTriples method bundle fs))
    (hocc : ∀ p < c.code.data.length, infixAt markerInner c.code.data p →
      ∃ s ∈ fs, p = s.ms + 1)
    (hraw : ∀ s ∈ fs, s.me = s.ms + 17)
    (hsep : ∀ s ∈ fs, s.ie = s.ms ∨
      ∃ ch, c.code.data[s.ms - 1]? = Option.some ch ∧ ch ∉ markerInner)
    (hnm : ∀ s ∈ fs, ¬ markerInner <:+: s.nm.data)
    (hdeps : ∀ s ∈ fs, ¬ markerInner <:+: (getDeps method bundle s.nm).data)
    (hout : out = String.mk (ovwChain (finSiteTriples method bundle fs) c.code.data 0)) :
    finalizeChunk parse method bundle c = Except.ok ({c with code := out}, []) ∧
    ¬ markerInner <:+: out.data ∧
    (∀ (parse2 : String → Option Node) (ast2 : Node),
      parse2 out = Option.some ast2 → markerRawOk out.data ast2 →
      finalizeChunk parse2 method bundle {c with code := out} =
        Except.ok ({c with code := out}, [])) := by
  have hmklen : markerInner.length = 15 := by decide
  have hocc1 : ∀ p, infixAt markerInner c.code.data p → ∃ s ∈ fs, p = s.ms + 1 := by
    intro p hp
    have hb := infixAt_bound (by decide) hp
    exact hocc p (by omega) hp
  have hno : ¬ markerInner <:+: out.data := by
    rw [hout]
    show ¬ markerInner <:+: ovwChain (finSiteTriples method bundle fs) c.code.data 0
    have := noMarkerChain method bundle c.code.data fs 0 h5
      (fun p _ hp => hocc1 p hp) hraw hsep hnm hdeps
    rwa [List.drop_zero] at this
  have hcond : ¬(c.type ≠ "chunk" ∨ c.dynamicImports = []) := by simp [h1, h2]
  refine ⟨?_, hno, ?_⟩
  · rw [finalizeChunk, if_neg hcond, h3]
    dsimp only
    rw [h4]
    dsimp only
    rw [renderOvw _ _ h5, hout]
  · intro parse2 ast2 hp2 hraw2
    have hcond2 : ¬(({c with code := out} : Chunk).type ≠ "chunk" ∨
        ({c with code := out} : Chunk).dynamicImports = []) := by
      simp [h1, h2]
    rw [finalizeChunk, if_neg hcond2,
      show ({c with code := out} : Chunk).code = out from rfl, hp2]
    dsimp only
    rw [visit_markerFree method bundle NodeOpt.none ast2
      (markerFree_of_rawOk out.data hno ast2 hraw2)]
    dsimp only
    rw [renderFrom_no_edits [] out.data 0 (fun j _ => ⟨rfl, rfl, rfl⟩)]

/-- Witness for C7 at the concrete chunk `exChunk`: the single recovered site
of `exCode`, its finalized text, and the vanishing of every marker occurrence
in it. -/
theorem C7_finalize_not_reentrant_witness :
    finalizeChunk exParse "preload" exBundleFull exChunk =
      Except.ok ({exChunk with code := "__loadDeps(\"t.js\", \"./a.js\",\"./b.js\")"}, []) ∧
    ¬ markerInner <:+: ("__loadDeps(\"t.js\", \"./a.js\",\"./b.js\")" : String).data ∧
    (∀ (parse2 : String → Option Node) (ast2 : Node),
      parse2 "__loadDeps(\"t.js\", \"./a.js\",\"./b.js\")" = Option.some ast2 →
      markerRawOk ("__loadDeps(\"t.js\", \"./a.js\",\"./b.js\")" : String).data ast2 →
      finalizeChunk parse2 "preload" exBundleFull
        {exChunk with code := "__loadDeps(\"t.js\", \"./a.js\",\"./b.js\")"} =
        Except.ok ({exChunk with code := "__loadDeps(\"t.js\", \"./a.js\",\"./b.js\")"},
          [])) :=
  C7_finalize_not_reentrant exParse "preload" exBundleFull exChunk exAst
    [⟨11, 25, 27, 44, "t.js"⟩] "__loadDeps(\"t.js\", \"./a.js\",\"./b.js\")"
    rfl (by decide) rfl rfl (by decide) (by decide) (by decide)
    (by
      intro s hs
      rw [List.mem_singleton] at hs
      subst hs
      exact Or.inr ⟨' ', by decide, by decide⟩)
    (by decide) (by decide) (by decide)

end HoistImportDeps
